import Mathlib

/-!
Verification of the pulldown-cmark parser core (src/parse.rs, src/linklabel.rs,
src/tree.rs) against its natural-language specification.

Strings are modelled as lists of bytes (`List Nat`).  Functions are shallow
embeddings of the Rust source; definitions whose Rust source is not part of
the repository snapshot (the byte scanners of `crate::scanners` and the
case-folding key of the `unicase` crate) are modelled from the specification
and marked as such in their doc comments.
-/

namespace PulldownCmark

/-- Modelled from the spec: `crate::scanners::is_ascii_whitespace`.  The byte
scanner interface required by the label scanner; ASCII whitespace is
HT..CR (9..13) and space (32). -/
def isAsciiWhitespace (b : Nat) : Bool :=
  (9 ≤ b && b ≤ 13) || b == 32

/-- Modelled from the spec: `crate::scanners::is_ascii_whitespace_no_nl`:
ASCII whitespace other than LF (10) and CR (13). -/
def isAsciiWhitespaceNoNl (b : Nat) : Bool :=
  b == 9 || b == 11 || b == 12 || b == 32

/-- Modelled from the spec: `crate::scanners::scan_eol` matches a line ending
(LF, CRLF, or lone CR) at the start of the slice, returning the number of
bytes consumed; an empty slice counts as an (empty) line end. -/
def scanEol : List Nat → Option Nat
  | [] => some 0
  | 10 :: _ => some 1
  | 13 :: 10 :: _ => some 2
  | 13 :: _ => some 1
  | _ => none

theorem scanEol_pos {l : List Nat} {n : Nat} (hne : l ≠ []) (h : scanEol l = some n) :
    1 ≤ n := by
  match l, h with
  | [], h => exact absurd rfl hne
  | 10 :: _, h => simp [scanEol] at h; omega
  | 13 :: 10 :: _, h => simp [scanEol] at h; omega
  | 13 :: [], h => simp [scanEol] at h; omega
  | 13 :: b :: l', h =>
    by_cases hb : b = 10
    · subst hb; simp [scanEol] at h; omega
    · rw [show scanEol (13 :: b :: l') = some 1 from by
        rw [scanEol.eq_def]; split <;> simp_all] at h
      simp at h; omega

/-- Model of `CowStr`: either a borrowed subslice of the input or an
arena-backed (owned) buffer built by a builder. -/
inductive CowStrM where
  | borrowed (s : List Nat)
  | boxed (s : List Nat)
  deriving Repr, DecidableEq

/-- Content bytes of a cow string. -/
def cowBytes : CowStrM → List Nat
  | .borrowed s => s
  | .boxed s => s

/-- Subslice `text[a..b]` of a byte string. -/
def byteSlice (text : List Nat) (a b : Nat) : List Nat :=
  (text.take b).drop a

/-- Inner whitespace loop of `scan_link_label_rest` (src/linklabel.rs lines
72-85): advances over a run of ASCII whitespace, counting a weight of 1 for a
plain space, 2 for any other whitespace byte, and 2 for a line break; at most
one line break is allowed, and after a line break the handler is consulted
for extra bytes to skip (`none` aborts).  Returns the new index and the
accumulated weight. -/
def wsRun (text : List Nat) (handler : List Nat → Option Nat)
    (ix whitespaces linebreaks : Nat) : Option (Nat × Nat) :=
  if h : ix < text.length ∧ isAsciiWhitespace (text.getD ix 0) then
    match heol : scanEol (text.drop ix) with
    | some eolBytes =>
      if linebreaks + 1 > 1 then none
      else
        match handler (text.drop (ix + eolBytes)) with
        | none => none
        | some k =>
          wsRun text handler (ix + eolBytes + k) (whitespaces + 2) (linebreaks + 1)
    | none =>
      wsRun text handler (ix + 1)
        (whitespaces + (if text.getD ix 0 == 32 then 1 else 2)) linebreaks
  else
    some (ix, whitespaces)
termination_by text.length - ix
decreasing_by
  · have hne : text.drop ix ≠ [] := by
      intro hnil
      have := List.drop_eq_nil_iff.mp hnil
      omega
    have hpos : 1 ≤ eolBytes := scanEol_pos hne heol
    omega
  · omega

theorem wsRun_base (text : List Nat) (handler : List Nat → Option Nat)
    {ix : Nat} (whitespaces linebreaks : Nat)
    (h : ¬(ix < text.length ∧ isAsciiWhitespace (text.getD ix 0) = true)) :
    wsRun text handler ix whitespaces linebreaks = some (ix, whitespaces) := by
  rw [wsRun.eq_def, dif_neg h]

theorem wsRun_eol_abort_lb (text : List Nat) (handler : List Nat → Option Nat)
    {ix eolBytes : Nat} (whitespaces linebreaks : Nat)
    (h : ix < text.length ∧ isAsciiWhitespace (text.getD ix 0) = true)
    (heol : scanEol (text.drop ix) = some eolBytes)
    (hlb : linebreaks + 1 > 1) :
    wsRun text handler ix whitespaces linebreaks = none := by
  rw [wsRun.eq_def, dif_pos h]
  split
  · next e heq => rw [if_pos hlb]
  · next heq => rw [heq] at heol; exact absurd heol (by simp)

theorem wsRun_eol_abort_handler (text : List Nat) (handler : List Nat → Option Nat)
    {ix eolBytes : Nat} (whitespaces linebreaks : Nat)
    (h : ix < text.length ∧ isAsciiWhitespace (text.getD ix 0) = true)
    (heol : scanEol (text.drop ix) = some eolBytes)
    (hlb : ¬linebreaks + 1 > 1)
    (hk : handler (text.drop (ix + eolBytes)) = none) :
    wsRun text handler ix whitespaces linebreaks = none := by
  rw [wsRun.eq_def, dif_pos h]
  split
  · next e heq =>
    rw [heq] at heol
    have he : e = eolBytes := by simpa using heol
    subst he
    rw [if_neg hlb, hk]
  · next heq => rw [heq] at heol; exact absurd heol (by simp)

theorem wsRun_eol_step (text : List Nat) (handler : List Nat → Option Nat)
    {ix eolBytes k : Nat} (whitespaces linebreaks : Nat)
    (h : ix < text.length ∧ isAsciiWhitespace (text.getD ix 0) = true)
    (heol : scanEol (text.drop ix) = some eolBytes)
    (hlb : ¬linebreaks + 1 > 1)
    (hk : handler (text.drop (ix + eolBytes)) = some k) :
    wsRun text handler ix whitespaces linebreaks =
      wsRun text handler (ix + eolBytes + k) (whitespaces + 2) (linebreaks + 1) := by
  rw [wsRun.eq_def, dif_pos h]
  split
  · next e heq =>
    rw [heq] at heol
    have he : e = eolBytes := by simpa using heol
    subst he
    rw [if_neg hlb, hk]
  · next heq => rw [heq] at heol; exact absurd heol (by simp)

theorem wsRun_space_step (text : List Nat) (handler : List Nat → Option Nat)
    {ix : Nat} (whitespaces linebreaks : Nat)
    (h : ix < text.length ∧ isAsciiWhitespace (text.getD ix 0) = true)
    (heol : scanEol (text.drop ix) = none) :
    wsRun text handler ix whitespaces linebreaks =
      wsRun text handler (ix + 1)
        (whitespaces + (if text.getD ix 0 == 32 then 1 else 2)) linebreaks := by
  rw [wsRun.eq_def, dif_pos h]
  split
  · next e heq => rw [heq] at heol; exact absurd heol (by simp)
  · next heq => rfl

theorem wsRun_le (text : List Nat) (handler : List Nat → Option Nat)
    (ix whitespaces linebreaks : Nat) :
    ∀ ix' w', wsRun text handler ix whitespaces linebreaks = some (ix', w') →
      ix ≤ ix' := by
  induction ix, whitespaces, linebreaks using wsRun.induct text handler with
  | case1 ix ws lb h eolBytes heol hlb =>
    intro ix' w' hres
    rw [wsRun_eol_abort_lb text handler ws lb h heol hlb] at hres
    exact absurd hres (by simp)
  | case2 ix ws lb h eolBytes heol hlb hk =>
    intro ix' w' hres
    rw [wsRun_eol_abort_handler text handler ws lb h heol hlb hk] at hres
    exact absurd hres (by simp)
  | case3 ix ws lb h eolBytes heol hlb k hk ih =>
    intro ix' w' hres
    rw [wsRun_eol_step text handler ws lb h heol hlb hk] at hres
    have := ih ix' w' hres
    omega
  | case4 ix ws lb h heol ih =>
    intro ix' w' hres
    rw [wsRun_space_step text handler ws lb h heol] at hres
    have := ih ix' w' hres
    omega
  | case5 ix ws lb h =>
    intro ix' w' hres
    rw [wsRun_base text handler ws lb h] at hres
    simp only [Option.some.injEq, Prod.mk.injEq] at hres
    omega

theorem wsRun_gt (text : List Nat) (handler : List Nat → Option Nat)
    {ix whitespaces linebreaks ix' w' : Nat}
    (hix : ix < text.length) (hws : isAsciiWhitespace (text.getD ix 0) = true)
    (hres : wsRun text handler ix whitespaces linebreaks = some (ix', w')) :
    ix < ix' := by
  have hne : text.drop ix ≠ [] := by
    intro hnil
    have := List.drop_eq_nil_iff.mp hnil
    omega
  cases heol : scanEol (text.drop ix) with
  | some eolBytes =>
    have hpos : 1 ≤ eolBytes := scanEol_pos hne heol
    by_cases hlb : linebreaks + 1 > 1
    · rw [wsRun_eol_abort_lb text handler _ _ ⟨hix, hws⟩ heol hlb] at hres
      exact absurd hres (by simp)
    · cases hk : handler (text.drop (ix + eolBytes)) with
      | none =>
        rw [wsRun_eol_abort_handler text handler _ _ ⟨hix, hws⟩ heol hlb hk] at hres
        exact absurd hres (by simp)
      | some k =>
        rw [wsRun_eol_step text handler _ _ ⟨hix, hws⟩ heol hlb hk] at hres
        have := wsRun_le text handler (ix + eolBytes + k) (whitespaces + 2)
          (linebreaks + 1) ix' w' hres
        omega
  | none =>
    rw [wsRun_space_step text handler _ _ ⟨hix, hws⟩ heol] at hres
    have := wsRun_le text handler (ix + 1) _ linebreaks ix' w' hres
    omega

theorem wsRun_weight_gt (text : List Nat) (handler : List Nat → Option Nat)
    {ix whitespaces linebreaks ix' w' : Nat}
    (hres : wsRun text handler ix whitespaces linebreaks = some (ix', w'))
    (hw : whitespaces < w') : ix < ix' := by
  by_cases hg : ix < text.length ∧ isAsciiWhitespace (text.getD ix 0) = true
  · exact wsRun_gt text handler hg.1 hg.2 hres
  · rw [wsRun_base text handler whitespaces linebreaks hg] at hres
    simp only [Option.some.injEq, Prod.mk.injEq] at hres
    omega

/-- Main loop of `scan_link_label_rest` (src/linklabel.rs lines 54-116).
State: current index, the all-whitespace flag, the codepoint counter, the
builder contents so far, and the mark (start of the pending raw segment).
The bounds check `hix` together with `text.getD` models the Rust
`*bytes.get(ix)?`. -/
def labelLoop (text : List Nat) (handler : List Nat → Option Nat)
    (ix : Nat) (onlyWhiteSpace : Bool) (codepoints : Nat)
    (label : List Nat) (mark : Nat) : Option (Nat × List Nat × CowStrM) :=
  if 1000 ≤ codepoints then none
  else if hix : ix < text.length then
    let b := text.getD ix 0
    if b == 91 then none
    else if b == 93 then
      if onlyWhiteSpace then none
      else
        let raw := text.take ix
        some (ix + 1, raw,
          if mark == 0 then CowStrM.borrowed raw
          else CowStrM.boxed (label ++ byteSlice text mark ix))
    else if b == 92 then
      labelLoop text handler (ix + 2) false (codepoints + 2) label mark
    else if isAsciiWhitespace b then
      match hws : wsRun text handler ix 0 0 with
      | none => none
      | some (ix', w) =>
        if 1 < w then
          labelLoop text handler ix' onlyWhiteSpace (codepoints + (ix' - ix))
            (label ++ byteSlice text mark ix ++ [32]) ix'
        else
          labelLoop text handler ix' onlyWhiteSpace (codepoints + 1) label mark
    else
      labelLoop text handler (ix + 1) false
        (codepoints + (if 128 ≤ b then 1 else 0)) label mark
  else none
termination_by (text.length - ix, 1000 - codepoints)
decreasing_by
  · exact Prod.Lex.left _ _ (by omega)
  · exact Prod.Lex.left _ _ (by
      have := wsRun_weight_gt text handler hws (by omega)
      omega)
  · have hle := wsRun_le text handler ix 0 0 ix' w hws
    rcases Nat.eq_or_lt_of_le hle with heq | hlt
    · subst heq
      exact Prod.Lex.right _ (by omega)
    · exact Prod.Lex.left _ _ (by omega)
  · exact Prod.Lex.left _ _ (by omega)

theorem wsByte_ne (b : Nat) (hb : isAsciiWhitespace b = true) :
    b ≠ 91 ∧ b ≠ 92 ∧ b ≠ 93 := by
  simp only [isAsciiWhitespace, Bool.or_eq_true, Bool.and_eq_true,
    decide_eq_true_eq, beq_iff_eq] at hb
  omega

theorem labelLoop_cap (text : List Nat) (handler : List Nat → Option Nat)
    {codepoints : Nat} (ix : Nat) (onlyWhiteSpace : Bool) (label : List Nat)
    (mark : Nat) (hcap : 1000 ≤ codepoints) :
    labelLoop text handler ix onlyWhiteSpace codepoints label mark = none := by
  rw [labelLoop.eq_def, if_pos hcap]

theorem labelLoop_oob (text : List Nat) (handler : List Nat → Option Nat)
    {ix codepoints : Nat} (onlyWhiteSpace : Bool) (label : List Nat) (mark : Nat)
    (hcap : ¬1000 ≤ codepoints) (hix : ¬ix < text.length) :
    labelLoop text handler ix onlyWhiteSpace codepoints label mark = none := by
  rw [labelLoop.eq_def, if_neg hcap, dif_neg hix]

theorem labelLoop_open (text : List Nat) (handler : List Nat → Option Nat)
    {ix codepoints : Nat} (onlyWhiteSpace : Bool) (label : List Nat) (mark : Nat)
    (hcap : ¬1000 ≤ codepoints) (hix : ix < text.length)
    (hb : text.getD ix 0 = 91) :
    labelLoop text handler ix onlyWhiteSpace codepoints label mark = none := by
  rw [labelLoop.eq_def, if_neg hcap, dif_pos hix]
  simp only [hb]
  rfl

theorem labelLoop_close_allws (text : List Nat) (handler : List Nat → Option Nat)
    {ix codepoints : Nat} (label : List Nat) (mark : Nat)
    (hcap : ¬1000 ≤ codepoints) (hix : ix < text.length)
    (hb : text.getD ix 0 = 93) :
    labelLoop text handler ix true codepoints label mark = none := by
  rw [labelLoop.eq_def, if_neg hcap, dif_pos hix]
  simp only [hb]
  rfl

theorem labelLoop_close (text : List Nat) (handler : List Nat → Option Nat)
    {ix codepoints : Nat} (label : List Nat) (mark : Nat)
    (hcap : ¬1000 ≤ codepoints) (hix : ix < text.length)
    (hb : text.getD ix 0 = 93) :
    labelLoop text handler ix false codepoints label mark =
      some (ix + 1, text.take ix,
        if mark == 0 then CowStrM.borrowed (text.take ix)
        else CowStrM.boxed (label ++ byteSlice text mark ix)) := by
  rw [labelLoop.eq_def, if_neg hcap, dif_pos hix]
  simp only [hb]
  rfl

theorem labelLoop_escape (text : List Nat) (handler : List Nat → Option Nat)
    {ix codepoints : Nat} (onlyWhiteSpace : Bool) (label : List Nat) (mark : Nat)
    (hcap : ¬1000 ≤ codepoints) (hix : ix < text.length)
    (hb : text.getD ix 0 = 92) :
    labelLoop text handler ix onlyWhiteSpace codepoints label mark =
      labelLoop text handler (ix + 2) false (codepoints + 2) label mark := by
  rw [labelLoop.eq_def, if_neg hcap, dif_pos hix]
  simp only [hb]
  rfl

theorem labelLoop_ws_abort (text : List Nat) (handler : List Nat → Option Nat)
    {ix codepoints : Nat} (onlyWhiteSpace : Bool) (label : List Nat) (mark : Nat)
    (hcap : ¬1000 ≤ codepoints) (hix : ix < text.length)
    (hb : isAsciiWhitespace (text.getD ix 0) = true)
    (hws : wsRun text handler ix 0 0 = none) :
    labelLoop text handler ix onlyWhiteSpace codepoints label mark = none := by
  obtain ⟨h91, h92, h93⟩ := wsByte_ne _ hb
  have e91 : (text.getD ix 0 == 91) = false := by rw [beq_eq_false_iff_ne]; exact h91
  have e92 : (text.getD ix 0 == 92) = false := by rw [beq_eq_false_iff_ne]; exact h92
  have e93 : (text.getD ix 0 == 93) = false := by rw [beq_eq_false_iff_ne]; exact h93
  rw [labelLoop.eq_def, if_neg hcap, dif_pos hix]
  simp only [e91, e92, e93, hb, Bool.false_eq_true, if_false, if_true]
  split <;> simp_all

theorem labelLoop_ws_collapse (text : List Nat) (handler : List Nat → Option Nat)
    {ix codepoints ix' w : Nat} (onlyWhiteSpace : Bool) (label : List Nat)
    (mark : Nat)
    (hcap : ¬1000 ≤ codepoints) (hix : ix < text.length)
    (hb : isAsciiWhitespace (text.getD ix 0) = true)
    (hws : wsRun text handler ix 0 0 = some (ix', w)) (hw : 1 < w) :
    labelLoop text handler ix onlyWhiteSpace codepoints label mark =
      labelLoop text handler ix' onlyWhiteSpace (codepoints + (ix' - ix))
        (label ++ byteSlice text mark ix ++ [32]) ix' := by
  obtain ⟨h91, h92, h93⟩ := wsByte_ne _ hb
  have e91 : (text.getD ix 0 == 91) = false := by rw [beq_eq_false_iff_ne]; exact h91
  have e92 : (text.getD ix 0 == 92) = false := by rw [beq_eq_false_iff_ne]; exact h92
  have e93 : (text.getD ix 0 == 93) = false := by rw [beq_eq_false_iff_ne]; exact h93
  rw [labelLoop.eq_def, if_neg hcap, dif_pos hix]
  simp only [e91, e92, e93, hb, Bool.false_eq_true, if_false, if_true]
  split <;> simp_all

theorem labelLoop_ws_single (text : List Nat) (handler : List Nat → Option Nat)
    {ix codepoints ix' w : Nat} (onlyWhiteSpace : Bool) (label : List Nat)
    (mark : Nat)
    (hcap : ¬1000 ≤ codepoints) (hix : ix < text.length)
    (hb : isAsciiWhitespace (text.getD ix 0) = true)
    (hws : wsRun text handler ix 0 0 = some (ix', w)) (hw : ¬1 < w) :
    labelLoop text handler ix onlyWhiteSpace codepoints label mark =
      labelLoop text handler ix' onlyWhiteSpace (codepoints + 1) label mark := by
  obtain ⟨h91, h92, h93⟩ := wsByte_ne _ hb
  have e91 : (text.getD ix 0 == 91) = false := by rw [beq_eq_false_iff_ne]; exact h91
  have e92 : (text.getD ix 0 == 92) = false := by rw [beq_eq_false_iff_ne]; exact h92
  have e93 : (text.getD ix 0 == 93) = false := by rw [beq_eq_false_iff_ne]; exact h93
  rw [labelLoop.eq_def, if_neg hcap, dif_pos hix]
  simp only [e91, e92, e93, hb, Bool.false_eq_true, if_false, if_true]
  split <;> simp_all

theorem labelLoop_default (text : List Nat) (handler : List Nat → Option Nat)
    {ix codepoints : Nat} (onlyWhiteSpace : Bool) (label : List Nat) (mark : Nat)
    (hcap : ¬1000 ≤ codepoints) (hix : ix < text.length)
    (h91 : text.getD ix 0 ≠ 91) (h93 : text.getD ix 0 ≠ 93)
    (h92 : text.getD ix 0 ≠ 92)
    (hb : isAsciiWhitespace (text.getD ix 0) = false) :
    labelLoop text handler ix onlyWhiteSpace codepoints label mark =
      labelLoop text handler (ix + 1) false
        (codepoints + (if 128 ≤ text.getD ix 0 then 1 else 0)) label mark := by
  have e91 : (text.getD ix 0 == 91) = false := by rw [beq_eq_false_iff_ne]; exact h91
  have e92 : (text.getD ix 0 == 92) = false := by rw [beq_eq_false_iff_ne]; exact h92
  have e93 : (text.getD ix 0 == 93) = false := by rw [beq_eq_false_iff_ne]; exact h93
  rw [labelLoop.eq_def, if_neg hcap, dif_pos hix]
  simp only [e91, e92, e93, hb, Bool.false_eq_true, if_false]

/-- Embedding of `scan_link_label_rest` (src/linklabel.rs lines 41-117):
scans a link label after the opening bracket, returning the number of bytes
consumed (including the closing bracket), the raw label subslice, and the
whitespace-normalized cow label. -/
def scanLinkLabelRest (text : List Nat) (handler : List Nat → Option Nat) :
    Option (Nat × List Nat × CowStrM) :=
  labelLoop text handler 0 true 0 [] 0

/-- Line-break handler that consumes no extra bytes and never aborts. -/
def trivialHandler : List Nat → Option Nat := fun _ => some 0

/-- Specification-side whitespace normalization of a label (spec 4.D): a
backslash escapes the following byte, and every other maximal run of ASCII
whitespace collapses to a single space. -/
def specNormalize : List Nat → List Nat
  | [] => []
  | b :: rest =>
    if b == 92 then
      match rest with
      | [] => [92]
      | c :: rest' => 92 :: c :: specNormalize rest'
    else if isAsciiWhitespace b then
      32 :: specNormalize (rest.dropWhile (fun x => isAsciiWhitespace x))
    else b :: specNormalize rest
termination_by l => l.length
decreasing_by
  · simp; omega
  · have := (List.dropWhile_sublist (l := rest')
      (p := fun x => isAsciiWhitespace x)).length_le
    simp
    omega
  · simp

theorem specNormalize_nil : specNormalize [] = [] := by
  rw [specNormalize]

theorem specNormalize_escape_nil : specNormalize [92] = [92] := by
  rw [specNormalize.eq_def]
  rfl

theorem specNormalize_escape (c : Nat) (r : List Nat) :
    specNormalize (92 :: c :: r) = 92 :: c :: specNormalize r := by
  rw [specNormalize.eq_def]
  rfl

theorem specNormalize_ws {b : Nat} (r : List Nat)
    (hb : isAsciiWhitespace b = true) :
    specNormalize (b :: r) =
      32 :: specNormalize (r.dropWhile (fun x => isAsciiWhitespace x)) := by
  have h92 : (b == 92) = false := by
    rw [beq_eq_false_iff_ne]
    exact (wsByte_ne b hb).2.1
  rw [specNormalize.eq_def]
  simp only [h92, Bool.false_eq_true, if_false, hb, if_true]

theorem specNormalize_other {b : Nat} (r : List Nat)
    (h92 : b ≠ 92) (hb : isAsciiWhitespace b = false) :
    specNormalize (b :: r) = b :: specNormalize r := by
  have e92 : (b == 92) = false := by rw [beq_eq_false_iff_ne]; exact h92
  rw [specNormalize.eq_def]
  simp only [e92, Bool.false_eq_true, if_false, hb]

theorem specNormalize_head_nonws :
    ∀ l : List Nat, (∀ b, l.head? = some b → isAsciiWhitespace b = false) →
      ∀ b, (specNormalize l).head? = some b → isAsciiWhitespace b = false := by
  intro l hl b hb
  match l, hl, hb with
  | [], _, hb => rw [specNormalize_nil] at hb; simp at hb
  | x :: rest, hl, hb =>
    have hx : isAsciiWhitespace x = false := hl x rfl
    by_cases h92 : x = 92
    · subst h92
      match rest with
      | [] =>
        rw [specNormalize_escape_nil] at hb
        simp at hb
        subst hb
        decide
      | c :: r' =>
        rw [specNormalize_escape] at hb
        simp at hb
        subst hb
        decide
    · rw [specNormalize_other rest h92 hx] at hb
      simp at hb
      rw [← hb]
      exact hx

theorem dropWhile_eq_self_of_head_nonws (l : List Nat)
    (hl : ∀ b, l.head? = some b → isAsciiWhitespace b = false) :
    l.dropWhile (fun x => isAsciiWhitespace x) = l := by
  cases l with
  | nil => rfl
  | cons x r =>
    have hx : isAsciiWhitespace x = false := hl x rfl
    simp [List.dropWhile, hx]

theorem dropWhile_head_nonws (l : List Nat) :
    ∀ b, (l.dropWhile (fun x => isAsciiWhitespace x)).head? = some b →
      isAsciiWhitespace b = false := by
  induction l with
  | nil => intro b hb; simp at hb
  | cons x r ih =>
    intro b hb
    by_cases hx : isAsciiWhitespace x = true
    · rw [List.dropWhile_cons_of_pos (by simpa using hx)] at hb
      exact ih b hb
    · rw [List.dropWhile_cons_of_neg (by simpa using hx)] at hb
      simp at hb
      rw [← hb]
      simpa using hx

theorem specNormalize_idem : ∀ l : List Nat,
    specNormalize (specNormalize l) = specNormalize l := by
  intro l
  induction l using specNormalize.induct with
  | case1 => rw [specNormalize_nil, specNormalize_nil]
  | case2 b hb =>
    have hb' : b = 92 := by simpa using hb
    subst hb'
    rw [specNormalize_escape_nil, specNormalize_escape_nil]
  | case3 b hb c rest' ih =>
    have hb' : b = 92 := by simpa using hb
    subst hb'
    rw [specNormalize_escape, specNormalize_escape, ih]
  | case4 b rest hb92 hbws ih =>
    rw [specNormalize_ws rest (by simpa using hbws),
      specNormalize_ws _ (by decide : isAsciiWhitespace 32 = true)]
    have hhead := dropWhile_head_nonws rest
    have hfix : (specNormalize (rest.dropWhile (fun x => isAsciiWhitespace x))).dropWhile
        (fun x => isAsciiWhitespace x) =
        specNormalize (rest.dropWhile (fun x => isAsciiWhitespace x)) :=
      dropWhile_eq_self_of_head_nonws _ (specNormalize_head_nonws _ hhead)
    rw [hfix, ih]
  | case5 b rest hb92 hbws ih =>
    have h92 : b ≠ 92 := by simpa using hb92
    have hws : isAsciiWhitespace b = false := by simpa using hbws
    rw [specNormalize_other rest h92 hws, specNormalize_other _ h92 hws, ih]

theorem byteSlice_self (text : List Nat) (a : Nat) : byteSlice text a a = [] := by
  apply List.drop_eq_nil_of_le
  simpa using Nat.min_le_left a text.length

theorem byteSlice_zero (text : List Nat) (b : Nat) :
    byteSlice text 0 b = text.take b := by
  simp [byteSlice]

theorem byteSlice_nil_of_le (text : List Nat) {a b : Nat} (h : b ≤ a) :
    byteSlice text a b = [] := by
  apply List.drop_eq_nil_of_le
  have := Nat.min_le_left b text.length
  simp only [List.length_take]
  omega

theorem byteSlice_cons (text : List Nat) {a b : Nat} (hab : a < b)
    (ha : a < text.length) :
    byteSlice text a b = text.getD a 0 :: byteSlice text (a + 1) b := by
  unfold byteSlice
  have hlen : a < (text.take b).length := by
    simp only [List.length_take]
    omega
  rw [List.drop_eq_getElem_cons hlen]
  congr 1
  rw [List.getElem_take]
  rw [List.getD_eq_getElem text 0 ha]

theorem byteSlice_append (text : List Nat) {a b c : Nat} (hab : a ≤ b)
    (hbc : b ≤ c) :
    byteSlice text a c = byteSlice text a b ++ byteSlice text b c := by
  unfold byteSlice
  have htake : text.take c = text.take b ++ (text.take c).drop b := by
    have h1 : (text.take c).take b = text.take b := by
      rw [List.take_take]
      congr 1
      omega
    conv_lhs => rw [← List.take_append_drop b (text.take c)]
    rw [h1]
  conv_lhs => rw [htake]
  rw [List.drop_append_eq_append_drop]
  by_cases hl : a ≤ (text.take b).length
  · have h0 : a - (text.take b).length = 0 := by omega
    rw [h0, List.drop_zero]
  · have hba : text.length < a := by
      simp only [List.length_take] at hl
      omega
    have h1 : (text.take b).drop a = [] := by
      apply List.drop_eq_nil_of_le
      simp only [List.length_take]
      omega
    have h2 : ((text.take c).drop b).drop (a - (text.take b).length) = [] := by
      apply List.drop_eq_nil_of_le
      simp only [List.length_drop, List.length_take]
      omega
    have h3 : (text.take c).drop b = [] := by
      apply List.drop_eq_nil_of_le
      simp only [List.length_take]
      omega
    rw [h1, h2, h3]

theorem byteSlice_snoc (text : List Nat) {a b : Nat} (hab : a ≤ b)
    (hb : b < text.length) :
    byteSlice text a (b + 1) = byteSlice text a b ++ [text.getD b 0] := by
  rw [byteSlice_append text hab (Nat.le_succ b), byteSlice_cons text
    (Nat.lt_succ_self b) hb, byteSlice_self]

theorem length_byteSlice (text : List Nat) {a b : Nat} (hab : a ≤ b)
    (hb : b ≤ text.length) : (byteSlice text a b).length = b - a := by
  unfold byteSlice
  simp only [List.length_drop, List.length_take]
  omega

theorem getD_take (text : List Nat) {p n : Nat} (h : p < n)
    (hp : p < text.length) : (text.take n).getD p 0 = text.getD p 0 := by
  have hlen : p < (text.take n).length := by
    simp only [List.length_take]
    omega
  rw [List.getD_eq_getElem _ 0 hlen, List.getD_eq_getElem _ 0 hp,
    List.getElem_take]

theorem getD_append_left {l1 l2 : List Nat} {p : Nat} (h : p < l1.length) :
    (l1 ++ l2).getD p 0 = l1.getD p 0 := by
  have hlen : p < (l1 ++ l2).length := by
    simp only [List.length_append]
    omega
  rw [List.getD_eq_getElem _ 0 hlen, List.getD_eq_getElem _ 0 h,
    List.getElem_append_left]

theorem dropWhile_ws_append {run rest : List Nat}
    (hrun : ∀ x ∈ run, isAsciiWhitespace x = true) :
    (run ++ rest).dropWhile (fun x => isAsciiWhitespace x) =
      rest.dropWhile (fun x => isAsciiWhitespace x) := by
  induction run with
  | nil => rfl
  | cons a t ih =>
    have ha : isAsciiWhitespace a = true := hrun a (List.mem_cons_self a t)
    rw [List.cons_append, List.dropWhile_cons_of_pos (by simpa using ha)]
    exact ih (fun x hx => hrun x (List.mem_cons_of_mem a hx))

theorem drop_cons_getD {text : List Nat} {ix : Nat} {x : Nat} {t : List Nat}
    (h : text.drop ix = x :: t) :
    text.getD ix 0 = x ∧ text.drop (ix + 1) = t := by
  have hix : ix < text.length := by
    by_contra hc
    rw [List.drop_eq_nil_of_le (by omega)] at h
    exact absurd h (by simp)
  rw [List.drop_eq_getElem_cons hix] at h
  simp only [List.cons.injEq] at h
  constructor
  · rw [List.getD_eq_getElem _ 0 hix]
    exact h.1
  · exact h.2

theorem scanEol_ws {text : List Nat} {ix e : Nat}
    (heol : scanEol (text.drop ix) = some e) (hix : ix < text.length) :
    ∀ j, ix ≤ j → j < ix + e → isAsciiWhitespace (text.getD j 0) = true := by
  intro j hj1 hj2
  match hd : text.drop ix, heol with
  | [], _ =>
    have := List.drop_eq_nil_iff.mp hd
    omega
  | 10 :: t, heol =>
    have he : e = 1 := by simpa [scanEol] using heol.symm
    subst he
    have hj : j = ix := by omega
    subst hj
    rw [(drop_cons_getD hd).1]
    decide
  | 13 :: 10 :: t, heol =>
    have he : e = 2 := by simpa [scanEol] using heol.symm
    subst he
    obtain ⟨hx, ht⟩ := drop_cons_getD hd
    rcases Nat.lt_or_ge j (ix + 1) with hj | hj
    · have hj' : j = ix := by omega
      subst hj'
      rw [hx]
      decide
    · have hj' : j = ix + 1 := by omega
      subst hj'
      rw [(drop_cons_getD ht).1]
      decide
  | 13 :: [], heol =>
    have he : e = 1 := by simpa [scanEol] using heol.symm
    subst he
    have hj : j = ix := by omega
    subst hj
    rw [(drop_cons_getD hd).1]
    decide
  | 13 :: b :: t, heol =>
    by_cases hb : b = 10
    · subst hb
      have he : e = 2 := by simpa [scanEol] using heol.symm
      subst he
      obtain ⟨hx, ht⟩ := drop_cons_getD hd
      rcases Nat.lt_or_ge j (ix + 1) with hj | hj
      · have hj' : j = ix := by omega
        subst hj'
        rw [hx]
        decide
      · have hj' : j = ix + 1 := by omega
        subst hj'
        rw [(drop_cons_getD ht).1]
        decide
    · have he : e = 1 := by
        rw [show scanEol (13 :: b :: t) = some 1 from by
          rw [scanEol.eq_def]; split <;> simp_all] at heol
        simpa using heol.symm
      subst he
      have hj : j = ix := by omega
      subst hj
      rw [(drop_cons_getD hd).1]
      decide

theorem wsRun_weight_mono (text : List Nat) (handler : List Nat → Option Nat)
    (ix whitespaces linebreaks : Nat) :
    ∀ ix' w', wsRun text handler ix whitespaces linebreaks = some (ix', w') →
      whitespaces ≤ w' := by
  induction ix, whitespaces, linebreaks using wsRun.induct text handler with
  | case1 ix ws lb h eolBytes heol hlb =>
    intro ix' w' hres
    rw [wsRun_eol_abort_lb text handler ws lb h heol hlb] at hres
    exact absurd hres (by simp)
  | case2 ix ws lb h eolBytes heol hlb hk =>
    intro ix' w' hres
    rw [wsRun_eol_abort_handler text handler ws lb h heol hlb hk] at hres
    exact absurd hres (by simp)
  | case3 ix ws lb h eolBytes heol hlb k hk ih =>
    intro ix' w' hres
    rw [wsRun_eol_step text handler ws lb h heol hlb hk] at hres
    have := ih ix' w' hres
    omega
  | case4 ix ws lb h heol ih =>
    intro ix' w' hres
    rw [wsRun_space_step text handler ws lb h heol] at hres
    have := ih ix' w' hres
    omega
  | case5 ix ws lb h =>
    intro ix' w' hres
    rw [wsRun_base text handler ws lb h] at hres
    simp only [Option.some.injEq, Prod.mk.injEq] at hres
    omega

theorem wsRun_end_nonws (text : List Nat) (handler : List Nat → Option Nat)
    (ix whitespaces linebreaks : Nat) :
    ∀ ix' w', wsRun text handler ix whitespaces linebreaks = some (ix', w') →
      ¬(ix' < text.length ∧ isAsciiWhitespace (text.getD ix' 0) = true) := by
  induction ix, whitespaces, linebreaks using wsRun.induct text handler with
  | case1 ix ws lb h eolBytes heol hlb =>
    intro ix' w' hres
    rw [wsRun_eol_abort_lb text handler ws lb h heol hlb] at hres
    exact absurd hres (by simp)
  | case2 ix ws lb h eolBytes heol hlb hk =>
    intro ix' w' hres
    rw [wsRun_eol_abort_handler text handler ws lb h heol hlb hk] at hres
    exact absurd hres (by simp)
  | case3 ix ws lb h eolBytes heol hlb k hk ih =>
    intro ix' w' hres
    rw [wsRun_eol_step text handler ws lb h heol hlb hk] at hres
    exact ih ix' w' hres
  | case4 ix ws lb h heol ih =>
    intro ix' w' hres
    rw [wsRun_space_step text handler ws lb h heol] at hres
    exact ih ix' w' hres
  | case5 ix ws lb h =>
    intro ix' w' hres
    rw [wsRun_base text handler ws lb h] at hres
    simp only [Option.some.injEq, Prod.mk.injEq] at hres
    obtain ⟨rfl, rfl⟩ := hres
    exact h

theorem wsRun_trivial_all_ws (text : List Nat) (ix whitespaces linebreaks : Nat) :
    ∀ ix' w', wsRun text trivialHandler ix whitespaces linebreaks = some (ix', w') →
      ∀ j, ix ≤ j → j < ix' → isAsciiWhitespace (text.getD j 0) = true := by
  induction ix, whitespaces, linebreaks using wsRun.induct text trivialHandler with
  | case1 ix ws lb h eolBytes heol hlb =>
    intro ix' w' hres
    rw [wsRun_eol_abort_lb text trivialHandler ws lb h heol hlb] at hres
    exact absurd hres (by simp)
  | case2 ix ws lb h eolBytes heol hlb hk =>
    intro ix' w' hres
    rw [wsRun_eol_abort_handler text trivialHandler ws lb h heol hlb hk] at hres
    exact absurd hres (by simp)
  | case3 ix ws lb h eolBytes heol hlb k hk ih =>
    intro ix' w' hres j hj1 hj2
    have hk0 : k = 0 := by simpa [trivialHandler] using hk.symm
    subst hk0
    rw [wsRun_eol_step text trivialHandler ws lb h heol hlb hk] at hres
    rcases Nat.lt_or_ge j (ix + eolBytes) with hj | hj
    · exact scanEol_ws heol h.1 j hj1 hj
    · exact ih ix' w' hres j (by omega) hj2
  | case4 ix ws lb h heol ih =>
    intro ix' w' hres j hj1 hj2
    rw [wsRun_space_step text trivialHandler ws lb h heol] at hres
    rcases Nat.lt_or_ge j (ix + 1) with hj | hj
    · have hj' : j = ix := by omega
      subst hj'
      exact h.2
    · exact ih ix' w' hres j hj hj2
  | case5 ix ws lb h =>
    intro ix' w' hres j hj1 hj2
    rw [wsRun_base text trivialHandler ws lb h] at hres
    simp only [Option.some.injEq, Prod.mk.injEq] at hres
    omega

theorem wsRun_single (text : List Nat) {ix ix' w' : Nat}
    (hix : ix < text.length) (hws : isAsciiWhitespace (text.getD ix 0) = true)
    (hres : wsRun text trivialHandler ix 0 0 = some (ix', w'))
    (hw : w' ≤ 1) : ix' = ix + 1 ∧ text.getD ix 0 = 32 := by
  cases heol : scanEol (text.drop ix) with
  | some eolBytes =>
    rw [@wsRun_eol_step text trivialHandler ix eolBytes 0 0 0 ⟨hix, hws⟩ heol
      (by omega) rfl] at hres
    have := wsRun_weight_mono text trivialHandler (ix + eolBytes + 0) (0 + 2) 1 ix' w' hres
    omega
  | none =>
    rw [wsRun_space_step text trivialHandler 0 0 ⟨hix, hws⟩ heol] at hres
    by_cases h32 : text.getD ix 0 = 32
    · rw [if_pos (by simpa using h32)] at hres
      refine ⟨?_, h32⟩
      by_cases hg : ix + 1 < text.length ∧ isAsciiWhitespace (text.getD (ix + 1) 0) = true
      · exfalso
        cases heol2 : scanEol (text.drop (ix + 1)) with
        | some e2 =>
          rw [@wsRun_eol_step text trivialHandler (ix + 1) e2 0 (0 + 1) 0 hg heol2
            (by omega) rfl] at hres
          have := wsRun_weight_mono text trivialHandler _ (0 + 1 + 2) 1 ix' w' hres
          omega
        | none =>
          rw [wsRun_space_step text trivialHandler (0 + 1) 0 hg heol2] at hres
          have := wsRun_weight_mono text trivialHandler _ _ 0 ix' w' hres
          split at this <;> omega
      · rw [wsRun_base text trivialHandler (0 + 1) 0 hg] at hres
        simp only [Option.some.injEq, Prod.mk.injEq] at hres
        omega
    · rw [if_neg (by simpa using h32)] at hres
      have := wsRun_weight_mono text trivialHandler (ix + 1) (0 + 2) 0 ix' w' hres
      omega

theorem scanEol_cons_nonl {b : Nat} (t : List Nat) (h10 : b ≠ 10) (h13 : b ≠ 13) :
    scanEol (b :: t) = none := by
  rw [scanEol.eq_def]
  split <;> simp_all

theorem wsRun_collapse_nonspace (text : List Nat) {ix w : Nat}
    (hix : ix < text.length)
    (hres : wsRun text trivialHandler ix 0 0 = some (ix + 1, w))
    (hw : 1 < w) : text.getD ix 0 ≠ 32 := by
  intro h32
  have hd : text.drop ix = text.getD ix 0 :: text.drop (ix + 1) := by
    rw [List.drop_eq_getElem_cons hix, List.getD_eq_getElem _ 0 hix]
  have heol : scanEol (text.drop ix) = none := by
    rw [hd, h32]
    exact scanEol_cons_nonl _ (by omega) (by omega)
  rw [wsRun_space_step text trivialHandler 0 0
    ⟨hix, by rw [h32]; decide⟩ heol] at hres
  rw [if_pos (by simpa using h32)] at hres
  by_cases hg : ix + 1 < text.length ∧ isAsciiWhitespace (text.getD (ix + 1) 0) = true
  · have := wsRun_gt text trivialHandler hg.1 hg.2 hres
    omega
  · rw [wsRun_base text trivialHandler (0 + 1) 0 hg] at hres
    simp only [Option.some.injEq, Prod.mk.injEq] at hres
    omega

theorem byteSlice_all_ws (text : List Nat) (a b : Nat) (hb : b ≤ text.length)
    (hall : ∀ j, a ≤ j → j < b → isAsciiWhitespace (text.getD j 0) = true) :
    ∀ x ∈ byteSlice text a b, isAsciiWhitespace x = true := by
  have main : ∀ fuel a', b - a' ≤ fuel →
      (∀ j, a' ≤ j → j < b → isAsciiWhitespace (text.getD j 0) = true) →
      ∀ x ∈ byteSlice text a' b, isAsciiWhitespace x = true := by
    intro fuel
    induction fuel with
    | zero =>
      intro a' hle hws x hx
      rw [byteSlice_nil_of_le text (by omega)] at hx
      simp at hx
    | succ k ih =>
      intro a' hle hws x hx
      by_cases hab : b ≤ a'
      · rw [byteSlice_nil_of_le text hab] at hx
        simp at hx
      · push_neg at hab
        rw [byteSlice_cons text hab (by omega)] at hx
        rcases List.mem_cons.mp hx with rfl | hx'
        · exact hws a' (Nat.le_refl a') hab
        · exact ih (a' + 1) (by omega) (fun j hj1 hj2 => hws j (by omega) hj2) x hx'
  exact main b a (by omega) hall

theorem getD_append_at_length (A : List Nat) (b : Nat) (B : List Nat) :
    (A ++ b :: B).getD A.length 0 = b := by
  have h : A.length < (A ++ b :: B).length := by
    simp only [List.length_append, List.length_cons]
    omega
  rw [List.getD_eq_getElem _ 0 h]
  rw [List.getElem_append_right (Nat.le_refl A.length)]
  simp

theorem byteSlice_head (text : List Nat) {a b : Nat} (hab : a < b)
    (ha : a < text.length) :
    (byteSlice text a b).head? = some (text.getD a 0) := by
  rw [byteSlice_cons text hab ha]
  rfl

/-- Main loop invariant: a successful scan with the trivial line-break handler
returns the raw prefix up to the closing bracket together with its
`specNormalize` image, and the result borrows the raw slice unless the
normalized content differs from it. -/
theorem labelLoop_norm (text : List Nat) :
    ∀ ix ows cps label mark,
      mark ≤ ix →
      (mark = 0 → label = []) →
      (mark ≠ 0 → label.length ≤ mark ∧
        (label.length < mark ∨
          ∃ p, p < label.length ∧ label.getD p 0 ≠ text.getD p 0)) →
      ∀ n raw cow,
        labelLoop text trivialHandler ix ows cps label mark = some (n, raw, cow) →
        ix + 1 ≤ n ∧ n ≤ text.length ∧ raw = text.take (n - 1) ∧
        cowBytes cow =
          label ++ byteSlice text mark ix ++
            specNormalize (byteSlice text ix (n - 1)) ∧
        (cow = CowStrM.borrowed raw ∨ cowBytes cow ≠ raw) := by
  intro ix ows cps label mark
  induction ix, ows, cps, label, mark using labelLoop.induct text trivialHandler with
  | case1 ix ows cps label mark hcap =>
    intro h1 h2 h3 n raw cow hres
    rw [labelLoop_cap text trivialHandler ix ows label mark hcap] at hres
    exact absurd hres (by simp)
  | case2 ix ows cps label mark hcap hix b h91 =>
    intro h1 h2 h3 n raw cow hres
    rw [labelLoop_open text trivialHandler ows label mark hcap hix
      (beq_iff_eq.mp h91)] at hres
    exact absurd hres (by simp)
  | case3 ix cps label mark hcap hix b h91 h93 =>
    intro h1 h2 h3 n raw cow hres
    rw [labelLoop_close_allws text trivialHandler label mark hcap hix
      (beq_iff_eq.mp h93)] at hres
    exact absurd hres (by simp)
  | case4 ix ows cps label mark hcap hix b h91 h93 hows =>
    intro h1 h2 h3 n raw cow hres
    have hof : ows = false := by simpa using hows
    subst hof
    rw [labelLoop_close text trivialHandler label mark hcap hix
      (beq_iff_eq.mp h93)] at hres
    simp only [Option.some.injEq, Prod.mk.injEq] at hres
    obtain ⟨hn, hraw, hcow⟩ := hres
    subst hn
    subst hraw
    subst hcow
    have hone : ix + 1 - 1 = ix := rfl
    refine ⟨Nat.le_refl _, by omega, by rw [hone], ?_, ?_⟩
    · rw [hone, byteSlice_self, specNormalize_nil, List.append_nil]
      by_cases hm : mark = 0
      · rw [if_pos (by simpa using hm), h2 hm, hm, byteSlice_zero]
        simp [cowBytes]
      · rw [if_neg (by simpa using hm)]
        simp [cowBytes]
    · by_cases hm : mark = 0
      · left
        rw [if_pos (by simpa using hm)]
      · right
        rw [if_neg (by simpa using hm)]
        simp only [cowBytes]
        obtain ⟨hlen, hdis⟩ := h3 hm
        have hls : (byteSlice text mark ix).length = ix - mark :=
          length_byteSlice text h1 (Nat.le_of_lt hix)
        have hlr : (text.take ix).length = ix := by
          rw [List.length_take]
          omega
        rcases hdis with hlt | ⟨p, hp, hne⟩
        · intro heq
          have := congrArg List.length heq
          simp only [List.length_append, hls, hlr] at this
          omega
        · intro heq
          have hgd := congrArg (fun l => l.getD p 0) heq
          simp only at hgd
          rw [getD_append_left hp] at hgd
          rw [getD_take text (by omega) (by omega)] at hgd
          exact hne hgd
  | case5 ix ows cps label mark hcap hix b h91 h93 h92 ih =>
    intro h1 h2 h3 n raw cow hres
    rw [labelLoop_escape text trivialHandler ows label mark hcap hix
      (beq_iff_eq.mp h92)] at hres
    obtain ⟨hA, hB, hC, hD, hG⟩ := ih (by omega) h2 h3 n raw cow hres
    refine ⟨by omega, hB, hC, ?_, hG⟩
    have hix1 : ix + 1 < text.length := by omega
    have hslice2 : byteSlice text mark (ix + 2) =
        byteSlice text mark ix ++ byteSlice text ix (ix + 2) :=
      byteSlice_append text h1 (by omega)
    have hcons1 : byteSlice text ix (ix + 2) =
        text.getD ix 0 :: byteSlice text (ix + 1) (ix + 2) :=
      byteSlice_cons text (by omega) hix
    have hcons2 : byteSlice text (ix + 1) (ix + 2) =
        text.getD (ix + 1) 0 :: byteSlice text (ix + 2) (ix + 2) :=
      byteSlice_cons text (by omega) hix1
    have hsliceN : byteSlice text ix (n - 1) =
        text.getD ix 0 :: text.getD (ix + 1) 0 :: byteSlice text (ix + 2) (n - 1) := by
      rw [byteSlice_cons text (by omega) hix, byteSlice_cons text (by omega) hix1]
    have h92' : text.getD ix 0 = 92 := beq_iff_eq.mp h92
    rw [hD, hslice2, hcons1, hcons2, byteSlice_self, hsliceN, h92',
      specNormalize_escape]
    simp [List.append_assoc]
  | case6 ix ows cps label mark hcap hix b h91 h93 h92 hwsb hws =>
    intro h1 h2 h3 n raw cow hres
    rw [labelLoop_ws_abort text trivialHandler ows label mark hcap hix hwsb hws]
      at hres
    exact absurd hres (by simp)
  | case7 ix ows cps label mark hcap hix b h91 h93 h92 hwsb ix' w hws hw ih =>
    intro h1 h2 h3 n raw cow hres
    rw [labelLoop_ws_collapse text trivialHandler ows label mark hcap hix hwsb
      hws hw] at hres
    have hlt : ix < ix' := wsRun_weight_gt text trivialHandler hws (by omega)
    have hall := wsRun_trivial_all_ws text ix 0 0 ix' w hws
    have hend := wsRun_end_nonws text trivialHandler ix 0 0 ix' w hws
    have hlenlab : (label ++ byteSlice text mark ix ++ [32]).length =
        label.length + (ix - mark) + 1 := by
      simp [List.length_append, length_byteSlice text h1 (Nat.le_of_lt hix)]
      omega
    have h2' : ix' = 0 → label ++ byteSlice text mark ix ++ [32] = [] := by
      intro h
      omega
    have h3' : ix' ≠ 0 →
        (label ++ byteSlice text mark ix ++ [32]).length ≤ ix' ∧
        ((label ++ byteSlice text mark ix ++ [32]).length < ix' ∨
          ∃ p, p < (label ++ byteSlice text mark ix ++ [32]).length ∧
            (label ++ byteSlice text mark ix ++ [32]).getD p 0 ≠ text.getD p 0) := by
      intro _
      by_cases hm : mark = 0
      · have hlab0 : label = [] := h2 hm
        have hlen0 : label.length = 0 := by rw [hlab0]; rfl
        constructor
        · omega
        · by_cases hone : ix' = ix + 1
          · right
            have hc : text.getD ix 0 ≠ 32 :=
              wsRun_collapse_nonspace text hix (hone ▸ hws) hw
            refine ⟨ix, by omega, ?_⟩
            have hAl : (label ++ byteSlice text mark ix).length = ix := by
              rw [List.length_append, hlen0,
                length_byteSlice text h1 (Nat.le_of_lt hix)]
              omega
            have hg : (label ++ byteSlice text mark ix ++ [32]).getD ix 0 = 32 := by
              have hg0 := getD_append_at_length (label ++ byteSlice text mark ix) 32 []
              rw [hAl] at hg0
              exact hg0
            rw [hg]
            exact fun h => hc h.symm
          · left
            omega
      · obtain ⟨hl3, hdis⟩ := h3 hm
        constructor
        · omega
        · rcases hdis with hstrict | ⟨p, hp, hne⟩
          · left
            omega
          · right
            refine ⟨p, by omega, ?_⟩
            have hpl : p < (label ++ byteSlice text mark ix).length := by
              rw [List.length_append]
              omega
            rw [getD_append_left hpl, getD_append_left hp]
            exact hne
    obtain ⟨hA, hB, hC, hD, hG⟩ := ih (Nat.le_refl _) h2' h3' n raw cow hres
    refine ⟨by omega, hB, hC, ?_, hG⟩
    have hixlen : ix' < text.length := by omega
    have hsplit : byteSlice text ix (n - 1) =
        byteSlice text ix ix' ++ byteSlice text ix' (n - 1) :=
      byteSlice_append text (Nat.le_of_lt hlt) (by omega)
    have hconsrun : byteSlice text ix ix' =
        text.getD ix 0 :: byteSlice text (ix + 1) ix' :=
      byteSlice_cons text hlt hix
    have hrunws : ∀ x ∈ byteSlice text (ix + 1) ix',
        isAsciiWhitespace x = true :=
      byteSlice_all_ws text (ix + 1) ix' (by omega)
        (fun j hj1 hj2 => hall j (by omega) hj2)
    have hspec : specNormalize (byteSlice text ix (n - 1)) =
        32 :: specNormalize (byteSlice text ix' (n - 1)) := by
      rw [hsplit, hconsrun, List.cons_append, specNormalize_ws _ hwsb]
      congr 1
      congr 1
      rw [dropWhile_ws_append hrunws]
      apply dropWhile_eq_self_of_head_nonws
      intro x hx
      by_cases hcase : ix' < n - 1
      · rw [byteSlice_head text hcase (by omega)] at hx
        simp only [Option.some.injEq] at hx
        subst hx
        by_cases hwsx : isAsciiWhitespace (text.getD ix' 0) = true
        · exact absurd ⟨by omega, hwsx⟩ hend
        · simpa using hwsx
      · rw [byteSlice_nil_of_le text (by omega)] at hx
        simp at hx
    rw [hD, hspec, byteSlice_self]
    simp [List.append_assoc]
  | case8 ix ows cps label mark hcap hix b h91 h93 h92 hwsb ix' w hws hw ih =>
    intro h1 h2 h3 n raw cow hres
    rw [labelLoop_ws_single text trivialHandler ows label mark hcap hix hwsb
      hws hw] at hres
    obtain ⟨hix1, h32⟩ := wsRun_single text hix hwsb hws (by omega)
    subst hix1
    have hend := wsRun_end_nonws text trivialHandler ix 0 0 (ix + 1) w hws
    obtain ⟨hA, hB, hC, hD, hG⟩ := ih (by omega) h2 h3 n raw cow hres
    refine ⟨by omega, hB, hC, ?_, hG⟩
    have hsnoc : byteSlice text mark (ix + 1) =
        byteSlice text mark ix ++ [text.getD ix 0] :=
      byteSlice_snoc text h1 hix
    have hconsN : byteSlice text ix (n - 1) =
        text.getD ix 0 :: byteSlice text (ix + 1) (n - 1) :=
      byteSlice_cons text (by omega) hix
    have hspec : specNormalize (byteSlice text ix (n - 1)) =
        32 :: specNormalize (byteSlice text (ix + 1) (n - 1)) := by
      rw [hconsN, specNormalize_ws _ hwsb]
      congr 1
      congr 1
      apply dropWhile_eq_self_of_head_nonws
      intro x hx
      by_cases hcase : ix + 1 < n - 1
      · rw [byteSlice_head text hcase (by omega)] at hx
        simp only [Option.some.injEq] at hx
        subst hx
        by_cases hwsx : isAsciiWhitespace (text.getD (ix + 1) 0) = true
        · exact absurd ⟨by omega, hwsx⟩ hend
        · simpa using hwsx
      · rw [byteSlice_nil_of_le text (by omega)] at hx
        simp at hx
    rw [hD, hsnoc, h32, hspec]
    simp [List.append_assoc]
  | case9 ix ows cps label mark hcap hix b h91 h93 h92 hnws ih =>
    intro h1 h2 h3 n raw cow hres
    have h91' : text.getD ix 0 ≠ 91 := fun hh => h91 (beq_iff_eq.mpr hh)
    have h93' : text.getD ix 0 ≠ 93 := fun hh => h93 (beq_iff_eq.mpr hh)
    have h92' : text.getD ix 0 ≠ 92 := fun hh => h92 (beq_iff_eq.mpr hh)
    have hnws' : isAsciiWhitespace (text.getD ix 0) = false := by
      rw [← Bool.not_eq_true]
      exact hnws
    rw [labelLoop_default text trivialHandler ows label mark hcap hix
      h91' h93' h92' hnws'] at hres
    obtain ⟨hA, hB, hC, hD, hG⟩ := ih (by omega) h2 h3 n raw cow hres
    refine ⟨by omega, hB, hC, ?_, hG⟩
    have hsnoc : byteSlice text mark (ix + 1) =
        byteSlice text mark ix ++ [text.getD ix 0] :=
      byteSlice_snoc text h1 hix
    have hconsN : byteSlice text ix (n - 1) =
        text.getD ix 0 :: byteSlice text (ix + 1) (n - 1) :=
      byteSlice_cons text (by omega) hix
    rw [hD, hsnoc, hconsN, specNormalize_other _ h92' hnws']
    simp [List.append_assoc]
  | case10 ix ows cps label mark hcap hix =>
    intro h1 h2 h3 n raw cow hres
    rw [labelLoop_oob text trivialHandler ows label mark hcap hix] at hres
    exact absurd hres (by simp)

theorem getD_mem_take (text : List Nat) {j n : Nat} (hj : j < n)
    (hjl : j < text.length) : text.getD j 0 ∈ text.take n := by
  have hlen : j < (text.take n).length := by
    rw [List.length_take]
    omega
  have hmem := List.getElem_mem hlen
  rw [List.getElem_take] at hmem
  rw [List.getD_eq_getElem text 0 hjl]
  exact hmem

theorem mem_take_mono (text : List Nat) {x m n : Nat} (h : m ≤ n)
    (hx : x ∈ text.take m) : x ∈ text.take n := by
  have heq : text.take m = (text.take n).take m := by
    rw [List.take_take]
    congr 1
    omega
  rw [heq] at hx
  exact List.take_subset _ _ hx

/-- Every successful label scan consumed at least one byte that is not ASCII
whitespace: empty and all-whitespace labels are rejected (the
`only_white_space` flag of src/linklabel.rs). -/
theorem labelLoop_nonws (text : List Nat) (handler : List Nat → Option Nat) :
    ∀ ix ows cps label mark,
      (ows = false → ∃ b, b ∈ text.take ix ∧ isAsciiWhitespace b = false) →
      ∀ n raw cow,
        labelLoop text handler ix ows cps label mark = some (n, raw, cow) →
        ∃ b, b ∈ raw ∧ isAsciiWhitespace b = false := by
  intro ix ows cps label mark
  induction ix, ows, cps, label, mark using labelLoop.induct text handler with
  | case1 ix ows cps label mark hcap =>
    intro hws n raw cow hres
    rw [labelLoop_cap text handler ix ows label mark hcap] at hres
    exact absurd hres (by simp)
  | case2 ix ows cps label mark hcap hix b h91 =>
    intro hws n raw cow hres
    rw [labelLoop_open text handler ows label mark hcap hix
      (beq_iff_eq.mp h91)] at hres
    exact absurd hres (by simp)
  | case3 ix cps label mark hcap hix b h91 h93 =>
    intro hws n raw cow hres
    rw [labelLoop_close_allws text handler label mark hcap hix
      (beq_iff_eq.mp h93)] at hres
    exact absurd hres (by simp)
  | case4 ix ows cps label mark hcap hix b h91 h93 hows =>
    intro hws n raw cow hres
    have hof : ows = false := by simpa using hows
    subst hof
    rw [labelLoop_close text handler label mark hcap hix
      (beq_iff_eq.mp h93)] at hres
    simp only [Option.some.injEq, Prod.mk.injEq] at hres
    obtain ⟨hn, hraw, hcow⟩ := hres
    subst hraw
    exact hws rfl
  | case5 ix ows cps label mark hcap hix b h91 h93 h92 ih =>
    intro hws n raw cow hres
    rw [labelLoop_escape text handler ows label mark hcap hix
      (beq_iff_eq.mp h92)] at hres
    apply ih ?_ n raw cow hres
    intro _
    refine ⟨92, ?_, by decide⟩
    have h92' : text.getD ix 0 = 92 := beq_iff_eq.mp h92
    have hmem := getD_mem_take text (show ix < ix + 2 by omega) hix
    rw [h92'] at hmem
    exact hmem
  | case6 ix ows cps label mark hcap hix b h91 h93 h92 hwsb hws0 =>
    intro hws n raw cow hres
    rw [labelLoop_ws_abort text handler ows label mark hcap hix hwsb hws0]
      at hres
    exact absurd hres (by simp)
  | case7 ix ows cps label mark hcap hix b h91 h93 h92 hwsb ix' w hws0 hw ih =>
    intro hws n raw cow hres
    rw [labelLoop_ws_collapse text handler ows label mark hcap hix hwsb
      hws0 hw] at hres
    apply ih ?_ n raw cow hres
    intro hof
    obtain ⟨x, hx, hxw⟩ := hws hof
    exact ⟨x, mem_take_mono text (wsRun_le text handler ix 0 0 ix' w hws0) hx, hxw⟩
  | case8 ix ows cps label mark hcap hix b h91 h93 h92 hwsb ix' w hws0 hw ih =>
    intro hws n raw cow hres
    rw [labelLoop_ws_single text handler ows label mark hcap hix hwsb
      hws0 hw] at hres
    apply ih ?_ n raw cow hres
    intro hof
    obtain ⟨x, hx, hxw⟩ := hws hof
    exact ⟨x, mem_take_mono text (wsRun_le text handler ix 0 0 ix' w hws0) hx, hxw⟩
  | case9 ix ows cps label mark hcap hix b h91 h93 h92 hnws ih =>
    intro hws n raw cow hres
    have hnws' : isAsciiWhitespace (text.getD ix 0) = false := by
      rw [← Bool.not_eq_true]
      exact hnws
    rw [labelLoop_default text handler ows label mark hcap hix
      (fun hh => h91 (beq_iff_eq.mpr hh)) (fun hh => h93 (beq_iff_eq.mpr hh))
      (fun hh => h92 (beq_iff_eq.mpr hh)) hnws'] at hres
    apply ih ?_ n raw cow hres
    intro _
    exact ⟨text.getD ix 0, getD_mem_take text (Nat.lt_succ_self ix) hix, hnws'⟩
  | case10 ix ows cps label mark hcap hix =>
    intro hws n raw cow hres
    rw [labelLoop_oob text handler ows label mark hcap hix] at hres
    exact absurd hres (by simp)

/-- A label made of plain ASCII bytes (no whitespace, brackets or backslash)
is scanned successfully whatever its length: the codepoint counter of
src/linklabel.rs adds nothing for such bytes. -/
theorem labelLoop_plain_ascii (pre : List Nat)
    (hpre : ∀ b ∈ pre, b < 128 ∧ isAsciiWhitespace b = false ∧
      b ≠ 91 ∧ b ≠ 92 ∧ b ≠ 93) :
    ∀ fuel ix, pre.length - ix ≤ fuel → ix ≤ pre.length →
      labelLoop (pre ++ [93]) trivialHandler ix false 0 [] 0 =
        some (pre.length + 1, pre, CowStrM.borrowed pre) := by
  intro fuel
  induction fuel with
  | zero =>
    intro ix hfuel hix
    have hixeq : ix = pre.length := by omega
    subst hixeq
    rw [labelLoop_close (pre ++ [93]) trivialHandler [] 0 (by omega)
      (by simp) (getD_append_at_length pre 93 [])]
    simp [List.take_left]
  | succ k ih =>
    intro ix hfuel hix
    by_cases hixeq : ix = pre.length
    · subst hixeq
      rw [labelLoop_close (pre ++ [93]) trivialHandler [] 0 (by omega)
        (by simp) (getD_append_at_length pre 93 [])]
      simp [List.take_left]
    · have hixlt : ix < pre.length := by omega
      have hb : (pre ++ [93]).getD ix 0 = pre.getD ix 0 :=
        getD_append_left (by omega)
      have hmem : pre.getD ix 0 ∈ pre := by
        rw [List.getD_eq_getElem pre 0 hixlt]
        exact List.getElem_mem hixlt
      obtain ⟨hlt, hnws, h91, h92, h93⟩ := hpre _ hmem
      rw [labelLoop_default (pre ++ [93]) trivialHandler false [] 0 (by omega)
        (by simp only [List.length_append, List.length_cons]; omega)
        (by rw [hb]; exact h91) (by rw [hb]; exact h93) (by rw [hb]; exact h92)
        (by rw [hb]; exact hnws)]
      have hcps : (0 + if 128 ≤ (pre ++ [93]).getD ix 0 then 1 else 0) = 0 := by
        rw [hb, if_neg (by omega)]
      rw [hcps]
      exact ih (ix + 1) (by omega) (by omega)

/-- Successful scan of a label whose bytes are plain ASCII, of any length. -/
theorem scan_plain_ascii (pre : List Nat) (hne : pre ≠ [])
    (hpre : ∀ b ∈ pre, b < 128 ∧ isAsciiWhitespace b = false ∧
      b ≠ 91 ∧ b ≠ 92 ∧ b ≠ 93) :
    scanLinkLabelRest (pre ++ [93]) trivialHandler =
      some (pre.length + 1, pre, CowStrM.borrowed pre) := by
  unfold scanLinkLabelRest
  have hlen : 0 < pre.length := List.length_pos.mpr hne
  have hb : (pre ++ [93]).getD 0 0 = pre.getD 0 0 := getD_append_left (by omega)
  have hmem : pre.getD 0 0 ∈ pre := by
    rw [List.getD_eq_getElem pre 0 hlen]
    exact List.getElem_mem hlen
  obtain ⟨hlt, hnws, h91, h92, h93⟩ := hpre _ hmem
  rw [labelLoop_default (pre ++ [93]) trivialHandler true [] 0 (by omega)
    (by simp only [List.length_append, List.length_cons]; omega)
    (by rw [hb]; exact h91) (by rw [hb]; exact h93) (by rw [hb]; exact h92)
    (by rw [hb]; exact hnws)]
  have hcps : (0 + if 128 ≤ (pre ++ [93]).getD 0 0 then 1 else 0) = 0 := by
    rw [hb, if_neg (by omega)]
  rw [hcps]
  exact labelLoop_plain_ascii pre hpre pre.length 1 (by omega) (by omega)

/-- Shared helper: content of a successful scan (trivial line-break handler)
is the `specNormalize` image of the raw label, and the raw slice is reused
when normalization changes nothing. -/
theorem scan_norm (text : List Nat) (n : Nat) (raw : List Nat) (cow : CowStrM)
    (hscan : scanLinkLabelRest text trivialHandler = some (n, raw, cow)) :
    cowBytes cow = specNormalize raw ∧
    (specNormalize raw = raw → cow = CowStrM.borrowed raw) := by
  obtain ⟨hA, hB, hC, hD, hG⟩ := labelLoop_norm text 0 true 0 [] 0
    (Nat.le_refl 0) (fun _ => rfl) (fun hm => absurd rfl hm) n raw cow hscan
  rw [byteSlice_self, byteSlice_zero, ← hC] at hD
  simp only [List.nil_append, List.append_nil] at hD
  refine ⟨hD, ?_⟩
  intro hfix
  rcases hG with hbor | hne
  · exact hbor
  · exact absurd (hD.trans hfix) hne

/-- Concrete scan with collapsing: the label `a TAB TAB b` scans to the raw
slice and the arena-built normalized form `a SP b`. -/
theorem scan_tabs_example :
    scanLinkLabelRest [97, 9, 9, 98, 93] trivialHandler =
      some (5, [97, 9, 9, 98], CowStrM.boxed [97, 32, 98]) := by
  unfold scanLinkLabelRest
  have hws13 : wsRun [97, 9, 9, 98, 93] trivialHandler 1 0 0 = some (3, 4) := by
    rw [wsRun_space_step [97, 9, 9, 98, 93] trivialHandler 0 0 (by decide)
      (by decide)]
    rw [wsRun_space_step [97, 9, 9, 98, 93] trivialHandler _ 0 (by decide)
      (by decide)]
    rw [wsRun_base [97, 9, 9, 98, 93] trivialHandler _ 0 (by decide)]
    decide
  rw [labelLoop_default [97, 9, 9, 98, 93] trivialHandler true [] 0 (by decide)
    (by decide) (by decide) (by decide) (by decide) (by decide)]
  rw [labelLoop_ws_collapse [97, 9, 9, 98, 93] trivialHandler false [] 0
    (by decide) (by decide) (by decide) hws13 (by decide)]
  rw [labelLoop_default [97, 9, 9, 98, 93] trivialHandler false _ 3 (by decide)
    (by decide) (by decide) (by decide) (by decide) (by decide)]
  rw [labelLoop_close [97, 9, 9, 98, 93] trivialHandler _ 3 (by decide)
    (by decide) (by decide)]
  decide

/-- A byte list contains no unescaped `[` (byte 91): a backslash escape
pair hides its second byte, any other occurrence of 91 counts. This is the
condition the scanner enforces on accepted labels (src/linklabel.rs lines
58-65: an unescaped `[` aborts the scan, while an escaped one is consumed
as part of its escape pair). -/
def noUnescapedOpen : List Nat → Bool
  | [] => true
  | 92 :: _ :: rest => noUnescapedOpen rest
  | b :: rest => b != 91 && noUnescapedOpen rest

theorem noUnescapedOpen_cons_other (b : Nat) (rest : List Nat)
    (h92 : b ≠ 92) (h91 : b ≠ 91) :
    noUnescapedOpen (b :: rest) = noUnescapedOpen rest := by
  rw [noUnescapedOpen.eq_def]
  split
  · next heq => exact absurd heq (by simp)
  · next hne =>
    injection hne with hb2 hr2
    exact absurd hb2 h92
  · next b2 rest2 hx heq =>
    injection heq with hb2 hr2
    subst hb2
    subst hr2
    have hb : (b != 91) = true := by
      rw [bne_iff_ne]
      exact h91
    rw [hb, Bool.true_and]

theorem noUnescapedOpen_append_ws (l r : List Nat)
    (h : ∀ b ∈ l, isAsciiWhitespace b = true) :
    noUnescapedOpen (l ++ r) = noUnescapedOpen r := by
  induction l with
  | nil => rfl
  | cons b l2 ih =>
    have hb := h b (List.mem_cons_self b l2)
    obtain ⟨h91, h92, _⟩ := wsByte_ne b hb
    rw [List.cons_append, noUnescapedOpen_cons_other b (l2 ++ r) h92 h91,
      ih (fun x hx => h x (List.mem_cons_of_mem b hx))]

/-- A successful scan with the no-skip handler consumes bytes only as
escape pairs, whitespace runs, single non-special bytes, and the closing
bracket, and aborts on an unescaped `[`; hence the consumed region
contains no unescaped `[`. -/
theorem labelLoop_no_open (text : List Nat) :
    ∀ ix ows cps label mark n raw cow,
      labelLoop text trivialHandler ix ows cps label mark =
        some (n, raw, cow) →
      ix + 1 ≤ n ∧ n ≤ text.length ∧
      noUnescapedOpen (byteSlice text ix (n - 1)) = true := by
  intro ix ows cps label mark
  induction ix, ows, cps, label, mark using
    labelLoop.induct text trivialHandler with
  | case1 ix ows cps label mark hcap =>
    intro n raw cow hres
    rw [labelLoop_cap text trivialHandler ix ows label mark hcap] at hres
    exact absurd hres (by simp)
  | case2 ix ows cps label mark hcap hix b h91 =>
    intro n raw cow hres
    rw [labelLoop_open text trivialHandler ows label mark hcap hix
      (beq_iff_eq.mp h91)] at hres
    exact absurd hres (by simp)
  | case3 ix cps label mark hcap hix b h91 h93 =>
    intro n raw cow hres
    rw [labelLoop_close_allws text trivialHandler label mark hcap hix
      (beq_iff_eq.mp h93)] at hres
    exact absurd hres (by simp)
  | case4 ix ows cps label mark hcap hix b h91 h93 hows =>
    intro n raw cow hres
    have hof : ows = false := by simpa using hows
    subst hof
    rw [labelLoop_close text trivialHandler label mark hcap hix
      (beq_iff_eq.mp h93)] at hres
    simp only [Option.some.injEq, Prod.mk.injEq] at hres
    obtain ⟨hn, hraw, hcow⟩ := hres
    subst hn
    refine ⟨Nat.le_refl _, by omega, ?_⟩
    rw [show ix + 1 - 1 = ix from rfl, byteSlice_self]
    rfl
  | case5 ix ows cps label mark hcap hix b h91 h93 h92 ih =>
    intro n raw cow hres
    rw [labelLoop_escape text trivialHandler ows label mark hcap hix
      (beq_iff_eq.mp h92)] at hres
    obtain ⟨hA, hB, hC⟩ := ih n raw cow hres
    refine ⟨by omega, hB, ?_⟩
    have hix1 : ix + 1 < text.length := by omega
    rw [byteSlice_cons text (by omega) hix,
      byteSlice_cons text (by omega) hix1,
      show text.getD ix 0 = 92 from beq_iff_eq.mp h92]
    exact hC
  | case6 ix ows cps label mark hcap hix b h91 h93 h92 hwsb hws =>
    intro n raw cow hres
    rw [labelLoop_ws_abort text trivialHandler ows label mark hcap hix hwsb
      hws] at hres
    exact absurd hres (by simp)
  | case7 ix ows cps label mark hcap hix b h91 h93 h92 hwsb ix' w hws hw ih =>
    intro n raw cow hres
    rw [labelLoop_ws_collapse text trivialHandler ows label mark hcap hix
      hwsb hws hw] at hres
    obtain ⟨hA, hB, hC⟩ := ih n raw cow hres
    have hle : ix ≤ ix' := wsRun_le text trivialHandler ix 0 0 ix' w hws
    refine ⟨by omega, hB, ?_⟩
    rw [byteSlice_append text hle (by omega),
      noUnescapedOpen_append_ws _ _ (byteSlice_all_ws text ix ix'
        (by omega) (wsRun_trivial_all_ws text ix 0 0 ix' w hws))]
    exact hC
  | case8 ix ows cps label mark hcap hix b h91 h93 h92 hwsb ix' w hws hw ih =>
    intro n raw cow hres
    rw [labelLoop_ws_single text trivialHandler ows label mark hcap hix hwsb
      hws hw] at hres
    obtain ⟨hA, hB, hC⟩ := ih n raw cow hres
    have hle : ix ≤ ix' := wsRun_le text trivialHandler ix 0 0 ix' w hws
    refine ⟨by omega, hB, ?_⟩
    rw [byteSlice_append text hle (by omega),
      noUnescapedOpen_append_ws _ _ (byteSlice_all_ws text ix ix'
        (by omega) (wsRun_trivial_all_ws text ix 0 0 ix' w hws))]
    exact hC
  | case9 ix ows cps label mark hcap hix b h91 h93 h92 hnws ih =>
    intro n raw cow hres
    have h91' : text.getD ix 0 ≠ 91 := fun hh => h91 (beq_iff_eq.mpr hh)
    have h93' : text.getD ix 0 ≠ 93 := fun hh => h93 (beq_iff_eq.mpr hh)
    have h92' : text.getD ix 0 ≠ 92 := fun hh => h92 (beq_iff_eq.mpr hh)
    have hnws' : isAsciiWhitespace (text.getD ix 0) = false := by
      rw [← Bool.not_eq_true]
      exact hnws
    rw [labelLoop_default text trivialHandler ows label mark hcap hix
      h91' h93' h92' hnws'] at hres
    obtain ⟨hA, hB, hC⟩ := ih n raw cow hres
    refine ⟨by omega, hB, ?_⟩
    rw [byteSlice_cons text (by omega) hix,
      noUnescapedOpen_cons_other _ _ h92' h91']
    exact hC
  | case10 ix ows cps label mark hcap hix =>
    intro n raw cow hres
    rw [labelLoop_oob text trivialHandler ows label mark hcap hix] at hres
    exact absurd hres (by simp)

theorem isAsciiWhitespace_high (b : Nat) (h : 128 ≤ b) :
    isAsciiWhitespace b = false := by
  simp only [isAsciiWhitespace, Bool.or_eq_false_iff, Bool.and_eq_false_iff,
    decide_eq_false_iff_not, Nat.not_le, beq_eq_false_iff_ne]
  omega

/-- Over a stretch of bytes with the high bit set, every loop step takes
the default arm and adds 1 to the counter, so once the remaining budget to
1000 is covered by such bytes the scan fails the cap. -/
theorem labelLoop_highbit (text : List Nat)
    (handler : List Nat → Option Nat) :
    ∀ (d ix cps : Nat) (ows : Bool) (label : List Nat) (mark : Nat),
      1000 ≤ cps + d →
      (∀ j, ix ≤ j → j < ix + d → j < text.length ∧ 128 ≤ text.getD j 0) →
      labelLoop text handler ix ows cps label mark = none := by
  intro d
  induction d with
  | zero =>
    intro ix cps ows label mark hcap hall
    exact labelLoop_cap text handler ix ows label mark (by omega)
  | succ k ih =>
    intro ix cps ows label mark hcap hall
    by_cases hc : 1000 ≤ cps
    · exact labelLoop_cap text handler ix ows label mark hc
    · obtain ⟨hjl, hjb⟩ := hall ix (Nat.le_refl _) (by omega)
      have h91 : text.getD ix 0 ≠ 91 := by omega
      have h92 : text.getD ix 0 ≠ 92 := by omega
      have h93 : text.getD ix 0 ≠ 93 := by omega
      rw [labelLoop_default text handler ows label mark hc hjl h91 h93 h92
        (isAsciiWhitespace_high _ hjb), if_pos hjb]
      exact ih (ix + 1) (cps + 1) false label mark (by omega)
        (fun j hj1 hj2 => hall j (by omega) (by omega))

/-- The UTF-8 codepoint count of a byte list: bytes other than
continuation bytes (`0b10xxxxxx`, i.e. quotient 2 on division by 64) each
start a codepoint. -/
def utf8Codepoints (bytes : List Nat) : Nat :=
  (bytes.filter (fun b => b / 64 != 2)).length

/-- `k` copies of the two-byte UTF-8 sequence `0xC3 0xA9` (the codepoint
U+00E9). -/
def twoBytePairs : Nat → List Nat
  | 0 => []
  | k + 1 => 195 :: 169 :: twoBytePairs k

theorem twoBytePairs_length (k : Nat) : (twoBytePairs k).length = 2 * k := by
  induction k with
  | zero => rfl
  | succ k ih =>
    unfold twoBytePairs
    simp only [List.length_cons, ih]
    omega

theorem twoBytePairs_high (k : Nat) :
    ∀ j, j < 2 * k → 128 ≤ (twoBytePairs k).getD j 0 := by
  induction k with
  | zero =>
    intro j hj
    omega
  | succ k ih =>
    intro j hj
    match j with
    | 0 =>
      show 128 ≤ (195 :: 169 :: twoBytePairs k).getD 0 0
      simp
    | 1 =>
      show 128 ≤ (195 :: 169 :: twoBytePairs k).getD 1 0
      simp
    | j + 2 =>
      have hih := ih j (by omega)
      show 128 ≤ (195 :: 169 :: twoBytePairs k).getD (j + 2) 0
      simpa using hih

theorem utf8Codepoints_twoBytePairs (k : Nat) :
    utf8Codepoints (twoBytePairs k) = k := by
  induction k with
  | zero => rfl
  | succ k ih =>
    unfold twoBytePairs utf8Codepoints
    rw [List.filter_cons, List.filter_cons]
    norm_num
    exact ih

/-- Claim C3 (corrected): `scan_link_label_rest` fails on an empty or
all-whitespace label and whenever the label contains an unescaped `[`
(every accepted label satisfies `noUnescapedOpen`; a leading unescaped `[`
is the concrete failing instance); but the length cap does not count
codepoints — the counter adds 1 only per byte with the high bit set (plus
2 per escape and the byte length of collapsed whitespace runs) — so labels
of plain ASCII bytes are scanned successfully at any length, while a label
of 500 two-byte codepoints (at most 1000 codepoints) fails the cap. -/
theorem c3_label_scan_failure_conditions :
    (∀ (text : List Nat) (handler : List Nat → Option Nat) n raw cow,
      scanLinkLabelRest text handler = some (n, raw, cow) →
      ∃ b, b ∈ raw ∧ isAsciiWhitespace b = false) ∧
    (∀ (text : List Nat) n raw cow,
      scanLinkLabelRest text trivialHandler = some (n, raw, cow) →
      noUnescapedOpen raw = true) ∧
    (∀ (rest : List Nat) (handler : List Nat → Option Nat),
      scanLinkLabelRest (91 :: rest) handler = none) ∧
    (∀ pre : List Nat, pre ≠ [] →
      (∀ b ∈ pre, b < 128 ∧ isAsciiWhitespace b = false ∧
        b ≠ 91 ∧ b ≠ 92 ∧ b ≠ 93) →
      scanLinkLabelRest (pre ++ [93]) trivialHandler =
        some (pre.length + 1, pre, CowStrM.borrowed pre)) ∧
    (scanLinkLabelRest (twoBytePairs 500 ++ [93]) trivialHandler = none ∧
      utf8Codepoints (twoBytePairs 500) ≤ 1000) := by
  refine ⟨?_, ?_, ?_, scan_plain_ascii, ?_, ?_⟩
  · intro text handler n raw cow hscan
    exact labelLoop_nonws text handler 0 true 0 [] 0
      (fun h => absurd h (by simp)) n raw cow hscan
  · intro text n raw cow hscan
    unfold scanLinkLabelRest at hscan
    obtain ⟨hA, hB, hC⟩ :=
      labelLoop_no_open text 0 true 0 [] 0 n raw cow hscan
    have hnorm := labelLoop_norm text 0 true 0 [] 0 (Nat.le_refl 0)
      (fun _ => rfl) (fun hm => absurd rfl hm) n raw cow hscan
    rw [hnorm.2.2.1, ← byteSlice_zero]
    exact hC
  · intro rest handler
    unfold scanLinkLabelRest
    exact labelLoop_open (91 :: rest) handler true [] 0 (by omega)
      (by simp) rfl
  · unfold scanLinkLabelRest
    apply labelLoop_highbit _ trivialHandler 1000 0 0 true [] 0 (by omega)
    intro j hj0 hj
    have hjlen : j < (twoBytePairs 500).length := by
      rw [twoBytePairs_length]
      omega
    constructor
    · rw [List.length_append]
      omega
    · rw [getD_append_left hjlen]
      exact twoBytePairs_high 500 j (by rw [twoBytePairs_length] at hjlen; omega)
  · rw [utf8Codepoints_twoBytePairs]
    omega

/-- Claim C3 counterexample: a label of 1001 ASCII codepoints — more than
1000 — is scanned successfully, contradicting the claim that labels over
1000 codepoints fail the scan. -/
theorem c3_counterexample_long_ascii :
    scanLinkLabelRest (List.replicate 1001 97 ++ [93]) trivialHandler =
      some (1002, List.replicate 1001 97,
        CowStrM.borrowed (List.replicate 1001 97)) ∧
    1000 < (List.replicate 1001 97).length := by
  constructor
  · have hne : List.replicate 1001 97 ≠ [] := by
      intro h
      have := congrArg List.length h
      rw [List.length_replicate] at this
      simp at this
    have h := scan_plain_ascii (List.replicate 1001 97) hne
      (fun b hb => by
        rw [List.eq_of_mem_replicate hb]
        refine ⟨by omega, by decide, by omega, by omega, by omega⟩)
    rw [List.length_replicate] at h
    exact h
  · rw [List.length_replicate]
    omega

/-- Witness for C3 at a concrete input: the one-byte label `a` scans, its
raw slice has a non-whitespace byte and no unescaped `[`, and a label
starting with `[` fails. -/
theorem c3_witness :
    scanLinkLabelRest [97, 93] trivialHandler =
      some (2, [97], CowStrM.borrowed [97]) ∧
    (∃ b, b ∈ [97] ∧ isAsciiWhitespace b = false) ∧
    noUnescapedOpen [97] = true ∧
    scanLinkLabelRest [91, 98] trivialHandler = none := by
  have hscan : scanLinkLabelRest [97, 93] trivialHandler =
      some (2, [97], CowStrM.borrowed [97]) := by
    have h := c3_label_scan_failure_conditions.2.2.2.1 [97] (by simp)
      (fun b hb => by
        simp only [List.mem_singleton] at hb
        subst hb
        exact ⟨by omega, by decide, by omega, by omega, by omega⟩)
    simpa using h
  refine ⟨hscan, ?_, ?_, ?_⟩
  · exact c3_label_scan_failure_conditions.1 [97, 93] trivialHandler
      2 [97] (CowStrM.borrowed [97]) hscan
  · exact c3_label_scan_failure_conditions.2.1 [97, 93]
      2 [97] (CowStrM.borrowed [97]) hscan
  · exact c3_label_scan_failure_conditions.2.2.1 [98] trivialHandler

/-- Claim C4 (confirmed, with the line-break handler that skips no bytes):
for every accepted label the normalized cow content equals the raw label
with every maximal whitespace run collapsed to a single space, and when
that normalization is the identity the returned cow is the borrowed raw
subslice (no buffer is built). -/
theorem c4_whitespace_collapse_and_borrow (text : List Nat) (n : Nat)
    (raw : List Nat) (cow : CowStrM)
    (hscan : scanLinkLabelRest text trivialHandler = some (n, raw, cow)) :
    cowBytes cow = specNormalize raw ∧
    (specNormalize raw = raw → cow = CowStrM.borrowed raw) :=
  scan_norm text n raw cow hscan

/-- Witness for C4 at the concrete input `a TAB TAB b ]`. -/
theorem c4_witness :
    cowBytes (CowStrM.boxed [97, 32, 98]) = specNormalize [97, 9, 9, 98] ∧
    (specNormalize [97, 9, 9, 98] = [97, 9, 9, 98] →
      CowStrM.boxed [97, 32, 98] = CowStrM.borrowed [97, 9, 9, 98]) :=
  c4_whitespace_collapse_and_borrow [97, 9, 9, 98, 93] 5 [97, 9, 9, 98]
    (CowStrM.boxed [97, 32, 98]) scan_tabs_example

/-- Claim C5 (confirmed): whitespace normalization of labels is idempotent —
normalizing twice equals normalizing once — and consequently the normalized
label produced by `scan_link_label_rest` is a fixed point of normalization. -/
theorem c5_normalize_idempotent :
    (∀ l : List Nat, specNormalize (specNormalize l) = specNormalize l) ∧
    (∀ (text : List Nat) n raw cow,
      scanLinkLabelRest text trivialHandler = some (n, raw, cow) →
      specNormalize (cowBytes cow) = cowBytes cow) := by
  refine ⟨specNormalize_idem, ?_⟩
  intro text n raw cow hscan
  have h := scan_norm text n raw cow hscan
  rw [h.1, specNormalize_idem]

/-- Witness for C5 at the concrete input `a TAB TAB b ]`. -/
theorem c5_witness :
    specNormalize (cowBytes (CowStrM.boxed [97, 32, 98])) =
      cowBytes (CowStrM.boxed [97, 32, 98]) :=
  c5_normalize_idempotent.2 [97, 9, 9, 98, 93] 5 [97, 9, 9, 98]
    (CowStrM.boxed [97, 32, 98]) scan_tabs_example

/-- Modelled from the spec: the `unicase` case-folded key over label bytes
("Case-folded (Unicode case folding, ASCII-compatible)"), modelled as ASCII
lowercasing. -/
def foldCase (l : List Nat) : List Nat :=
  l.map (fun b => if 65 ≤ b ∧ b ≤ 90 then b + 32 else b)

/-- Model of `LinkDef` (src/parse.rs lines 1587-1591). -/
structure LinkDefM where
  dest : List Nat
  title : Option (List Nat)
  deriving Repr, DecidableEq

/-- Insertion into the refdefs table, implementing
`self.allocs.refdefs.entry(label).or_insert(link_def)` (src/parse.rs line
386) over an association-list model of the hash map: the new entry is added
only when no entry with a case-folded-equal key is present. -/
def insertRefdef (m : List (List Nat × LinkDefM)) (label : List Nat)
    (d : LinkDefM) : List (List Nat × LinkDefM) :=
  if m.any (fun p => foldCase p.1 == foldCase label) then m
  else m ++ [(label, d)]

/-- Lookup in the refdefs table under the case-folded key, as in
`self.allocs.refdefs.get(&UniCase::new(...))` (src/parse.rs line 1963). -/
def lookupRefdef (m : List (List Nat × LinkDefM)) (label : List Nat) :
    Option LinkDefM :=
  (m.find? (fun p => foldCase p.1 == foldCase label)).map (fun p => p.2)

theorem lookupRefdef_isSome_of_any {m : List (List Nat × LinkDefM)}
    {l label : List Nat}
    (hany : m.any (fun p => foldCase p.1 == foldCase l) = true)
    (heq : foldCase l = foldCase label) :
    (lookupRefdef m label).isSome = true := by
  obtain ⟨p, hp, hpf⟩ := List.any_eq_true.mp hany
  have hfind : (m.find? (fun p => foldCase p.1 == foldCase label)).isSome = true := by
    rw [List.find?_isSome]
    refine ⟨p, hp, ?_⟩
    simp only [beq_iff_eq] at hpf ⊢
    rw [hpf, heq]
  obtain ⟨v, hv⟩ := Option.isSome_iff_exists.mp hfind
  unfold lookupRefdef
  rw [hv]
  rfl

theorem lookupRefdef_foldl (label : List Nat) :
    ∀ (defs : List (List Nat × LinkDefM)) (m : List (List Nat × LinkDefM)),
      lookupRefdef (defs.foldl (fun acc d => insertRefdef acc d.1 d.2) m) label =
        (lookupRefdef m label).or
          ((defs.find? (fun d => foldCase d.1 == foldCase label)).map
            (fun d => d.2)) := by
  intro defs
  induction defs with
  | nil =>
    intro m
    simp [Option.or_none]
  | cons hd tl ih =>
    intro m
    rw [List.foldl_cons, ih]
    by_cases hmatch : (foldCase hd.1 == foldCase label) = true
    · simp only [List.find?_cons, hmatch]
      unfold insertRefdef
      by_cases hany : (m.any (fun p => foldCase p.1 == foldCase hd.1)) = true
      · rw [if_pos hany]
        have hsome := lookupRefdef_isSome_of_any hany (beq_iff_eq.mp hmatch)
        obtain ⟨v, hv⟩ := Option.isSome_iff_exists.mp hsome
        rw [hv]
        rfl
      · rw [if_neg hany]
        unfold lookupRefdef
        rw [List.find?_append]
        cases hm : m.find? (fun p => foldCase p.1 == foldCase label) with
        | some p => simp [hm]
        | none =>
          simp only [hm, Option.map_none, Option.none_or]
          have hfind : [(hd.1, hd.2)].find?
              (fun p => foldCase p.1 == foldCase label) = some (hd.1, hd.2) := by
            simp only [List.find?_cons, hmatch]
          simp [Option.orElse, hfind]
    · have hmf : (foldCase hd.1 == foldCase label) = false := by
        rw [← Bool.not_eq_true]
        exact hmatch
      simp only [List.find?_cons, hmf]
      unfold insertRefdef
      by_cases hany : (m.any (fun p => foldCase p.1 == foldCase hd.1)) = true
      · rw [if_pos hany]
      · rw [if_neg hany]
        unfold lookupRefdef
        rw [List.find?_append]
        cases hm : m.find? (fun p => foldCase p.1 == foldCase label) with
        | some p => simp [hm]
        | none =>
          simp only [hm, Option.map_none, Option.none_or]
          have hfind : [(hd.1, hd.2)].find?
              (fun p => foldCase p.1 == foldCase label) = none := by
            simp only [List.find?_cons, hmf]
            rfl
          simp [Option.orElse, hfind]

/-- Claim C2 (confirmed): processing any sequence of reference definitions
through `refdefs.entry(label).or_insert(link_def)` stores, for every
canonical (case-folded) label, exactly the first definition carrying that
label; lookups used to resolve reference links return that first
definition, and all later duplicates are ignored. -/
theorem c2_refdef_first_wins (defs : List (List Nat × LinkDefM))
    (label : List Nat) :
    lookupRefdef (defs.foldl (fun acc d => insertRefdef acc d.1 d.2) []) label =
      (defs.find? (fun d => foldCase d.1 == foldCase label)).map
        (fun d => d.2) := by
  rw [lookupRefdef_foldl label defs []]
  rfl

/-- Model of `LinkType` (src/parse.rs lines 70-90). -/
inductive LinkTypeM where
  | inline
  | reference
  | referenceUnknown
  | collapsed
  | collapsedUnknown
  | shortcut
  | shortcutUnknown
  | autolink
  | email
  deriving Repr, DecidableEq

/-- Model of `LinkType::to_unknown` (src/parse.rs lines 92-101); the `none`
result models the `unreachable!` panic on the remaining variants. -/
def LinkTypeM.toUnknown : LinkTypeM → Option LinkTypeM
  | .reference => some .referenceUnknown
  | .collapsed => some .collapsedUnknown
  | .shortcut => some .shortcutUnknown
  | _ => none

/-- Embedding of the reference-resolution step of `handle_inline_pass1`
(src/parse.rs lines 1962-1978): look the (normalized) link label up in the
refdef table under its case-folded key; on a hit use the stored destination
and title (empty title when absent); on a miss invoke the broken-link
callback, passing the same `link_label` as both arguments, and on a
callback hit use the `to_unknown` variant of the matched link type. -/
def resolveRefLink (refdefs : List (List Nat × LinkDefM))
    (callback : Option (List Nat → List Nat → Option (List Nat × List Nat)))
    (linkType : LinkTypeM) (linkLabel : List Nat) :
    Option (LinkTypeM × List Nat × List Nat) :=
  match lookupRefdef refdefs linkLabel with
  | some matchingDef =>
    some (linkType, matchingDef.dest, matchingDef.title.getD [])
  | none =>
    match callback with
    | some cb =>
      match cb linkLabel linkLabel with
      | some (url, title) =>
        (linkType.toUnknown).map (fun tu => (tu, url, title))
      | none => none
    | none => none

/-- Concrete scan with space collapsing: the label `a SP SP b` scans to the
raw slice `a SP SP b` and normalized form `a SP b`. -/
theorem scan_spaces_example :
    scanLinkLabelRest [97, 32, 32, 98, 93] trivialHandler =
      some (5, [97, 32, 32, 98], CowStrM.boxed [97, 32, 98]) := by
  unfold scanLinkLabelRest
  have hws13 : wsRun [97, 32, 32, 98, 93] trivialHandler 1 0 0 = some (3, 2) := by
    rw [wsRun_space_step [97, 32, 32, 98, 93] trivialHandler 0 0 (by decide)
      (by decide)]
    rw [wsRun_space_step [97, 32, 32, 98, 93] trivialHandler _ 0 (by decide)
      (by decide)]
    rw [wsRun_base [97, 32, 32, 98, 93] trivialHandler _ 0 (by decide)]
    decide
  rw [labelLoop_default [97, 32, 32, 98, 93] trivialHandler true [] 0
    (by decide) (by decide) (by decide) (by decide) (by decide) (by decide)]
  rw [labelLoop_ws_collapse [97, 32, 32, 98, 93] trivialHandler false [] 0
    (by decide) (by decide) (by decide) hws13 (by decide)]
  rw [labelLoop_default [97, 32, 32, 98, 93] trivialHandler false _ 3
    (by decide) (by decide) (by decide) (by decide) (by decide) (by decide)]
  rw [labelLoop_close [97, 32, 32, 98, 93] trivialHandler _ 3 (by decide)
    (by decide) (by decide)]
  decide

/-- Claim C9 counterexample: for the label text `a SP SP b ]` the raw label
is `a SP SP b` but the broken-link callback receives the normalized label
`a SP b` as its FIRST argument as well: a callback that echoes its first
argument into the url produces the normalized label, not the raw one. -/
theorem c9_counterexample_callback_args :
    scanLinkLabelRest [97, 32, 32, 98, 93] trivialHandler =
      some (5, [97, 32, 32, 98], CowStrM.boxed [97, 32, 98]) ∧
    resolveRefLink [] (some (fun first _ => some (first, [])))
        LinkTypeM.reference (cowBytes (CowStrM.boxed [97, 32, 98])) =
      some (LinkTypeM.referenceUnknown, [97, 32, 98], []) ∧
    [97, 32, 98] ≠ [97, 32, 32, 98] := by
  refine ⟨scan_spaces_example, by decide, by decide⟩

/-- Claim C9 (corrected): when the canonical label misses the refdef table,
the broken-link callback is invoked with the normalized label as BOTH
arguments (the raw label is not passed); if it returns a url and title the
link is recorded with the Unknown variant of the matched link type
(Reference becomes ReferenceUnknown, Collapsed becomes CollapsedUnknown,
Shortcut becomes ShortcutUnknown) carrying that url and title. -/
theorem c9_broken_link_callback (refdefs : List (List Nat × LinkDefM))
    (cb : List Nat → List Nat → Option (List Nat × List Nat))
    (ty : LinkTypeM) (label url title : List Nat)
    (hmiss : lookupRefdef refdefs label = none)
    (hcb : cb label label = some (url, title))
    (hty : ty = .reference ∨ ty = .collapsed ∨ ty = .shortcut) :
    ∃ tu, ty.toUnknown = some tu ∧
      resolveRefLink refdefs (some cb) ty label = some (tu, url, title) ∧
      (ty = .reference → tu = .referenceUnknown) ∧
      (ty = .collapsed → tu = .collapsedUnknown) ∧
      (ty = .shortcut → tu = .shortcutUnknown) := by
  rcases hty with rfl | rfl | rfl
  · exact ⟨.referenceUnknown, rfl, by
      unfold resolveRefLink
      rw [hmiss]
      simp [hcb, LinkTypeM.toUnknown], fun _ => rfl, by simp, by simp⟩
  · exact ⟨.collapsedUnknown, rfl, by
      unfold resolveRefLink
      rw [hmiss]
      simp [hcb, LinkTypeM.toUnknown], by simp, fun _ => rfl, by simp⟩
  · exact ⟨.shortcutUnknown, rfl, by
      unfold resolveRefLink
      rw [hmiss]
      simp [hcb, LinkTypeM.toUnknown], by simp, by simp, fun _ => rfl⟩

/-- Witness for C9 at a concrete input: an absent label with a constant
callback yields the ReferenceUnknown variant with the callback's url and
title. -/
theorem c9_witness :
    ∃ tu, LinkTypeM.reference.toUnknown = some tu ∧
      resolveRefLink [] (some (fun _ _ => some ([121], [122])))
        LinkTypeM.reference [120] = some (tu, [121], [122]) ∧
      (LinkTypeM.reference = .reference → tu = .referenceUnknown) ∧
      (LinkTypeM.reference = .collapsed → tu = .collapsedUnknown) ∧
      (LinkTypeM.reference = .shortcut → tu = .shortcutUnknown) :=
  c9_broken_link_callback [] (fun _ _ => some ([121], [122]))
    LinkTypeM.reference [120] [121] [122] rfl rfl (Or.inl rfl)

/-- Model of `LinkStackTy` (src/parse.rs lines 1580-1585). -/
inductive LinkStackTyM where
  | link
  | image
  | disabled
  deriving Repr, DecidableEq

/-- Model of `LinkStackEl` (src/parse.rs lines 1574-1578). -/
structure LinkStackElM where
  node : Nat
  ty : LinkStackTyM
  deriving Repr, DecidableEq

/-- The disabling loop of `handle_inline_pass1` (src/parse.rs lines
1920-1924 and 2005-2009): every `Link` entry of the link stack becomes
`Disabled`; other entries are untouched. -/
def disableOpenLinks (stack : List LinkStackElM) : List LinkStackElM :=
  stack.map (fun el =>
    if el.ty = LinkStackTyM.link then { el with ty := LinkStackTyM.disabled }
    else el)

/-- Guard around the disabling loop (src/parse.rs lines 1919 and 2004): it
runs exactly when the successfully resolved opener was a `Link`, not an
`Image`. -/
def afterLinkResolve (tosTy : LinkStackTyM) (stack : List LinkStackElM) :
    List LinkStackElM :=
  if tosTy = LinkStackTyM.link then disableOpenLinks stack else stack

/-- Claim C8 (confirmed): when a link (not an image) resolves, every `Link`
entry remaining on the link stack is transitioned to `Disabled` — no active
link opener survives, so no link nests inside another link — while `Image`
entries are left untouched (images may nest inside links); when an image
resolves the stack is unchanged (links may nest inside images). -/
theorem c8_nested_link_disabling (stack : List LinkStackElM) :
    (∀ el ∈ afterLinkResolve LinkStackTyM.link stack,
      el.ty ≠ LinkStackTyM.link) ∧
    (∀ i el, stack.get? i = some el → el.ty = LinkStackTyM.image →
      (afterLinkResolve LinkStackTyM.link stack).get? i = some el) ∧
    afterLinkResolve LinkStackTyM.image stack = stack ∧
    (afterLinkResolve LinkStackTyM.link stack).length = stack.length := by
  refine ⟨?_, ?_, ?_, ?_⟩
  · intro el hel
    unfold afterLinkResolve disableOpenLinks at hel
    rw [if_pos rfl] at hel
    obtain ⟨x, hx, hfx⟩ := List.mem_map.mp hel
    by_cases hty : x.ty = LinkStackTyM.link
    · rw [if_pos hty] at hfx
      rw [← hfx]
      simp
    · rw [if_neg hty] at hfx
      rw [← hfx]
      exact hty
  · intro i el hget hty
    unfold afterLinkResolve disableOpenLinks
    rw [if_pos rfl, List.get?_map, hget]
    simp [hty]
  · unfold afterLinkResolve
    rw [if_neg (by simp)]
  · unfold afterLinkResolve disableOpenLinks
    rw [if_pos rfl, List.length_map]

/-- Witness for C8 at a concrete stack: after a link resolves above the
stack `[image node 1, link node 2]`, the image entry is preserved in
place. -/
theorem c8_witness :
    (afterLinkResolve LinkStackTyM.link
      [⟨1, LinkStackTyM.image⟩, ⟨2, LinkStackTyM.link⟩]).get? 0 =
      some ⟨1, LinkStackTyM.image⟩ :=
  (c8_nested_link_disabling
    [⟨1, LinkStackTyM.image⟩, ⟨2, LinkStackTyM.link⟩]).2.1 0
    ⟨1, LinkStackTyM.image⟩ rfl rfl

/-- Break kinds produced by the end-of-line arm of `parse_line`. -/
inductive BreakKindM where
  | hard
  | soft
  deriving Repr, DecidableEq

/-- Break item produced by the end-of-line arm of `parse_line`: start and
end byte offsets and the kind (`stop` models the Rust `end` field). -/
structure BreakItemM where
  start : Nat
  stop : Nat
  kind : BreakKindM
  deriving Repr, DecidableEq

/-- Length of the run of trailing non-newline ASCII whitespace before `ix`,
as counted by `bytes[..ix].iter().rev().take_while(is_ascii_whitespace_no_nl)`
(src/parse.rs lines 570-573). -/
def trailingWsNoNl (bytes : List Nat) (ix : Nat) : Nat :=
  ((bytes.take ix).reverse.takeWhile (fun b => isAsciiWhitespaceNoNl b)).length

/-- Embedding of the `\n`/`\r` arm of the `parse_line` callback
(src/parse.rs lines 553-613) for inline content outside tables (tables
disabled): a hard break when the byte before the newline is a backslash and
the line is not final, else a hard break when two or more trailing
non-newline whitespace bytes precede the newline, else a soft break. -/
def lineBreakItem (bytes : List Nat) (ix : Nat) : BreakItemM :=
  let eolBytes := (scanEol (bytes.drop ix)).getD 0
  let endIx := ix + eolBytes
  if bytes.get? (ix - 1) = some 92 ∧ endIx < bytes.length then
    ⟨ix - 1, endIx, .hard⟩
  else
    let trailing := trailingWsNoNl bytes ix
    if 2 ≤ trailing then ⟨ix - trailing, endIx, .hard⟩
    else ⟨ix, endIx, .soft⟩

/-- Claim C6 counterexample: the non-final line `a TAB TAB` ends with two
tabs — not two spaces and no backslash — yet the code classifies the line
ending as a hard break, where the claim requires a soft break. -/
theorem c6_counterexample_tabs :
    lineBreakItem [97, 9, 9, 10, 98] 3 = ⟨1, 4, BreakKindM.hard⟩ ∧
    [97, 9, 9, 10, 98].get? 2 ≠ some 92 ∧
    (([97, 9, 9, 10, 98].take 3).reverse.takeWhile (fun b => b == 32)).length
      < 2 := by
  refine ⟨by decide, by decide, by decide⟩

/-- Claim C6 (corrected): for a non-final line, the end-of-line arm of
`parse_line` yields a HardBreak item exactly when the byte before the
newline is a backslash or the line ends with two or more trailing
non-newline ASCII whitespace bytes (spaces or tabs or VT or FF, not just
spaces), and a SoftBreak item for every other line ending. -/
theorem c6_line_break_classification (bytes : List Nat) (ix : Nat)
    (hnonfinal : ix + (scanEol (bytes.drop ix)).getD 0 < bytes.length) :
    ((lineBreakItem bytes ix).kind = BreakKindM.hard ↔
      (bytes.get? (ix - 1) = some 92 ∨ 2 ≤ trailingWsNoNl bytes ix)) ∧
    ((lineBreakItem bytes ix).kind = BreakKindM.soft ↔
      ¬(bytes.get? (ix - 1) = some 92 ∨ 2 ≤ trailingWsNoNl bytes ix)) := by
  unfold lineBreakItem
  by_cases hbs : bytes.get? (ix - 1) = some 92
  · rw [if_pos ⟨hbs, hnonfinal⟩]
    constructor
    · exact ⟨fun _ => Or.inl hbs, fun _ => rfl⟩
    · constructor
      · intro h
        exact absurd h (by simp)
      · intro h
        exact absurd (Or.inl hbs) h
  · rw [if_neg (fun hc => hbs hc.1)]
    by_cases htr : 2 ≤ trailingWsNoNl bytes ix
    · rw [if_pos htr]
      constructor
      · exact ⟨fun _ => Or.inr htr, fun _ => rfl⟩
      · constructor
        · intro h
          exact absurd h (by simp)
        · intro h
          exact absurd (Or.inr htr) h
    · rw [if_neg htr]
      constructor
      · constructor
        · intro h
          exact absurd h (by simp)
        · intro h
          rcases h with h | h
          · exact absurd h hbs
          · exact absurd h htr
      · constructor
        · intro _ h
          rcases h with h | h
          · exact absurd h hbs
          · exact absurd h htr
        · intro _
          rfl

/-- Witness for C6 at concrete inputs: a backslash line ending is a hard
break. -/
theorem c6_witness :
    (lineBreakItem [97, 92, 10, 98] 2).kind = BreakKindM.hard :=
  ((c6_line_break_classification [97, 92, 10, 98] 2 (by decide)).1).mpr
    (Or.inl (by decide))

/-- Model of `InlineEl` (src/parse.rs lines 1439-1445): tree offset of the
first delimiter, run length, delimiter byte, and whether the run can both
open and close. -/
structure InlineElM where
  start : Nat
  count : Nat
  c : Nat
  both : Bool
  deriving Repr, DecidableEq

/-- Model of `InlineStack` (src/parse.rs lines 1447-1455): the stack of open
delimiter runs and the five lower bounds for `_`, non-both `*`, and `*` by
run length mod 3. -/
structure InlineStackM where
  stack : List InlineElM
  lb0 : Nat
  lb1 : Nat
  lb2 : Nat
  lb3 : Nat
  lb4 : Nat
  deriving Repr, DecidableEq

/-- Model of `InlineStack::get_lowerbound` (src/parse.rs lines 1475-1488). -/
def getLowerbound (st : InlineStackM) (c count : Nat) (both : Bool) : Nat :=
  if c = 95 then st.lb0
  else if c = 42 then
    let mod3Lower := match count % 3 with
      | 0 => st.lb2
      | 1 => st.lb3
      | _ => st.lb4
    if both then mod3Lower else min mod3Lower st.lb1
  else 0

/-- Model of `InlineStack::set_lowerbound` (src/parse.rs lines 1490-1499). -/
def setLowerbound (st : InlineStackM) (c count : Nat) (both : Bool)
    (newBound : Nat) : InlineStackM :=
  if c = 95 then { st with lb0 := newBound }
  else if c = 42 then
    let st1 := match count % 3 with
      | 0 => { st with lb2 := newBound }
      | 1 => { st with lb3 := newBound }
      | _ => { st with lb4 := newBound }
    if both then st1 else { st1 with lb1 := newBound }
  else st

/-- Reverse find with index: the result of
`slice.iter().cloned().enumerate().rev().find(p)` — the element with the
highest index satisfying `p`, together with that index. -/
def findRevIdx (l : List InlineElM) (p : InlineElM → Bool) :
    Option (Nat × InlineElM) :=
  match l with
  | [] => none
  | x :: xs =>
    match findRevIdx xs p with
    | some (i, el) => some (i + 1, el)
    | none => if p x then some (0, x) else none

/-- Model of `InlineStack::find_match` (src/parse.rs lines 1501-1528),
without the tree: the source loop also rewrites the skipped delimiters'
tree nodes to `Text`, which affects neither the returned element nor the
stack and lower bounds.  As in the source, the index found in the
`[lowerbound..]` slice is applied to the whole stack for the truncation,
the skipped-element loop, and the lower-bound updates. -/
def findMatch (st : InlineStackM) (c count : Nat) (both : Bool) :
    Option InlineElM × InlineStackM :=
  let lowerbound := getLowerbound st c count both
  let res := findRevIdx (st.stack.drop lowerbound)
    (fun el => el.c == c &&
      ((!both && !el.both) || (count + el.count) % 3 != 0 || count % 3 == 0))
  match res with
  | some (matchingIx, matchingEl) =>
    let st1 := ((List.range st.stack.length).drop (matchingIx + 1)).foldl
      (fun acc i =>
        match st.stack.get? i with
        | some el => setLowerbound acc el.c el.count el.both (matchingIx - 1)
        | none => acc) st
    (some matchingEl, { st1 with stack := st.stack.take matchingIx })
  | none =>
    (none, setLowerbound st c count both (st.stack.length - 1))

/-- The rule-of-three matching condition as a proposition. -/
theorem findMatch_pred_iff (c count : Nat) (both : Bool) (el : InlineElM) :
    (el.c == c &&
      ((!both && !el.both) || (count + el.count) % 3 != 0 ||
        count % 3 == 0)) = true ↔
    (el.c = c ∧ ((both = false ∧ el.both = false) ∨
      (count + el.count) % 3 ≠ 0 ∨ count % 3 = 0)) := by
  simp only [Bool.and_eq_true, Bool.or_eq_true, beq_iff_eq, bne_iff_ne,
    Bool.not_eq_true']
  constructor
  · rintro ⟨h1, h2⟩
    exact ⟨h1, by tauto⟩
  · rintro ⟨h1, h2⟩
    exact ⟨h1, by tauto⟩

theorem findRevIdx_none {l : List InlineElM} {p : InlineElM → Bool}
    (h : findRevIdx l p = none) : ∀ x ∈ l, p x = false := by
  induction l with
  | nil => intro x hx; simp at hx
  | cons a t ih =>
    rw [findRevIdx] at h
    intro x hx
    cases hrec : findRevIdx t p with
    | some r => rw [hrec] at h; simp at h
    | none =>
      rw [hrec] at h
      rcases List.mem_cons.mp hx with rfl | hx'
      · by_cases hp : p x = true
        · rw [if_pos hp] at h; simp at h
        · rw [← Bool.not_eq_true]; exact hp
      · exact ih hrec x hx'

theorem findRevIdx_some {l : List InlineElM} {p : InlineElM → Bool}
    {i : Nat} {el : InlineElM} (h : findRevIdx l p = some (i, el)) :
    l.get? i = some el ∧ p el = true ∧
    ∀ j el', i < j → l.get? j = some el' → p el' = false := by
  induction l generalizing i with
  | nil => rw [findRevIdx] at h; simp at h
  | cons a t ih =>
    rw [findRevIdx] at h
    cases hrec : findRevIdx t p with
    | some r =>
      rw [hrec] at h
      obtain ⟨i0, el0⟩ := r
      simp only [Option.some.injEq, Prod.mk.injEq] at h
      obtain ⟨hi, hel⟩ := h
      subst hel
      obtain ⟨hg, hp, hmax⟩ := ih hrec
      refine ⟨?_, hp, ?_⟩
      · rw [← hi]
        simpa using hg
      · intro j el' hj hget
        match j, hj with
        | j' + 1, hj =>
          simp only [List.get?_cons_succ] at hget
          exact hmax j' el' (by omega) hget
    | none =>
      rw [hrec] at h
      by_cases hp : p a = true
      · rw [if_pos hp] at h
        simp only [Option.some.injEq, Prod.mk.injEq] at h
        obtain ⟨hi, hel⟩ := h
        subst hel
        subst hi
        refine ⟨rfl, hp, ?_⟩
        intro j el' hj hget
        match j, hj with
        | j' + 1, _ =>
          simp only [List.get?_cons_succ] at hget
          have := findRevIdx_none hrec el'
          apply this
          exact List.get?_mem hget
      · rw [if_neg hp] at h
        simp at h

theorem getLowerbound_zero (stack : List InlineElM) (c count : Nat)
    (both : Bool) :
    getLowerbound ⟨stack, 0, 0, 0, 0, 0⟩ c count both = 0 := by
  unfold getLowerbound
  split
  · rfl
  · split
    · simp only
      split <;> split <;> rfl
    · rfl

/-- Claim C7 (confirmed): from a fresh inline stack (all memoized lower
bounds zero), `find_match` for a closing run of length `count` and
delimiter byte `c` produces a match exactly when some stack entry has the
same delimiter and (a) neither side can both open and close, or (b) the sum
of the run lengths is not divisible by 3, or (c) the closing run length is
divisible by 3 — and the produced match is the nearest (topmost) such
entry. -/
theorem c7_rule_of_three (stack : List InlineElM) (c count : Nat)
    (both : Bool) :
    ((findMatch ⟨stack, 0, 0, 0, 0, 0⟩ c count both).1 = none →
      ∀ el ∈ stack, ¬(el.c = c ∧ ((both = false ∧ el.both = false) ∨
        (count + el.count) % 3 ≠ 0 ∨ count % 3 = 0))) ∧
    (∀ el, (findMatch ⟨stack, 0, 0, 0, 0, 0⟩ c count both).1 = some el →
      ∃ i, stack.get? i = some el ∧
        (el.c = c ∧ ((both = false ∧ el.both = false) ∨
          (count + el.count) % 3 ≠ 0 ∨ count % 3 = 0)) ∧
        ∀ j el', i < j → stack.get? j = some el' →
          ¬(el'.c = c ∧ ((both = false ∧ el'.both = false) ∨
            (count + el'.count) % 3 ≠ 0 ∨ count % 3 = 0))) := by
  have hlb := getLowerbound_zero stack c count both
  constructor
  · intro hnone el hel
    unfold findMatch at hnone
    simp only [hlb, List.drop_zero] at hnone
    cases hres : findRevIdx stack (fun el => el.c == c &&
        ((!both && !el.both) || (count + el.count) % 3 != 0 ||
          count % 3 == 0)) with
    | some r =>
      rw [hres] at hnone
      obtain ⟨i0, el0⟩ := r
      simp at hnone
    | none =>
      have hall := findRevIdx_none hres el hel
      rw [← findMatch_pred_iff c count both el]
      simp [hall]
  · intro el hsome
    unfold findMatch at hsome
    simp only [hlb, List.drop_zero] at hsome
    cases hres : findRevIdx stack (fun el => el.c == c &&
        ((!both && !el.both) || (count + el.count) % 3 != 0 ||
          count % 3 == 0)) with
    | some r =>
      rw [hres] at hsome
      obtain ⟨i0, el0⟩ := r
      simp only [Option.some.injEq] at hsome
      subst hsome
      obtain ⟨hg, hp, hmax⟩ := findRevIdx_some hres
      refine ⟨i0, hg, (findMatch_pred_iff c count both el0).mp hp, ?_⟩
      intro j el' hj hget
      have hfalse := hmax j el' hj hget
      intro hc
      have hcontra := (findMatch_pred_iff c count both el').mpr hc
      rw [hfalse] at hcontra
      simp at hcontra
    | none =>
      rw [hres] at hsome
      simp at hsome

/-- Witness for C7 at a concrete stack: a single-star closer matches a
double-star opener (sum 3 but the opener is not both-flanking). -/
theorem c7_witness :
    ∃ i, [InlineElM.mk 1 2 42 false].get? i = some ⟨1, 2, 42, false⟩ ∧
      ((⟨1, 2, 42, false⟩ : InlineElM).c = 42 ∧
        ((false = false ∧ (⟨1, 2, 42, false⟩ : InlineElM).both = false) ∨
          (1 + (⟨1, 2, 42, false⟩ : InlineElM).count) % 3 ≠ 0 ∨
          1 % 3 = 0)) ∧
      ∀ j el', i < j → [InlineElM.mk 1 2 42 false].get? j = some el' →
        ¬(el'.c = 42 ∧ ((false = false ∧ el'.both = false) ∨
          (1 + el'.count) % 3 ≠ 0 ∨ 1 % 3 = 0)) :=
  (c7_rule_of_three [⟨1, 2, 42, false⟩] 42 1 false).2
    ⟨1, 2, 42, false⟩ (by decide)

/-- Model of `ItemBody` (src/parse.rs lines 143-192), the tagged variant
over block, leaf, and pre/post-resolution inline kinds; `Int`/`Nat` indices
model the allocation-table indices. -/
inductive ItemBodyM where
  | paragraph
  | text
  | softBreak
  | hardBreak
  | maybeEmphasis (repeats : Nat) (canOpen : Bool) (canClose : Bool)
  | maybeCode (count : Nat)
  | maybeHtml
  | maybeLinkOpen
  | maybeLinkClose
  | maybeImage
  | backslash
  | emphasis
  | strong
  | strikethrough
  | code (cowIx : Nat)
  | inlineHtml
  | link (linkIx : Nat)
  | image (linkIx : Nat)
  | footnoteReference (cowIx : Nat)
  | taskListMarker (checked : Bool)
  | rule
  | header (level : Int)
  | fencedCodeBlock (cowIx : Nat)
  | indentCodeBlock
  | htmlBlock (endTag : Option Nat)
  | html
  | blockQuote
  | list (isTight : Bool) (ch : Nat) (startIx : Nat)
  | listItem (indent : Nat)
  | synthesizeText (cowIx : Nat)
  | footnoteDefinition (cowIx : Nat)
  | table (alignIx : Nat)
  | tableHead
  | tableRow
  | tableCell
  | root
  deriving Repr, DecidableEq

/-- Model of `ItemBody::is_inline` (src/parse.rs lines 194-202). -/
def ItemBodyM.isInline : ItemBodyM → Bool
  | .maybeEmphasis _ _ _ => true
  | .maybeHtml => true
  | .maybeCode _ => true
  | .maybeLinkOpen => true
  | .maybeLinkClose => true
  | .maybeImage => true
  | _ => false

/-- Model of `Item` (src/parse.rs lines 136-141); `stop` models the Rust
`end` field. -/
structure ItemM where
  start : Nat
  stop : Nat
  body : ItemBodyM
  deriving Repr, DecidableEq

/-- Model of `Node` (src/tree.rs lines 26-31); `Option Nat` models
`TreePointer` with `none` as `Nil`. -/
structure NodeM where
  child : Option Nat
  next : Option Nat
  item : ItemM
  deriving Repr, DecidableEq

/-- Model of `Tree<Item>` (src/tree.rs lines 33-38): the node vector (index
0 is the dummy root), the spine of open ancestors (top of the spine at the
head of the list), and the current focus. -/
structure TreeM where
  nodes : List NodeM
  spine : List Nat
  cur : Option Nat
  deriving Repr, DecidableEq

/-- The dummy placed at index 0 by `Tree::new` (src/tree.rs lines 44-54). -/
def dummyNode : NodeM := ⟨none, none, ⟨0, 0, ItemBodyM.root⟩⟩

/-- Node access `self[ix]` (src/tree.rs lines 146-152); out-of-range access
(a panic in Rust) yields the dummy. -/
def getNode (t : TreeM) (ix : Nat) : NodeM :=
  t.nodes.getD ix dummyNode

/-- In-place node mutation through `IndexMut` (src/tree.rs lines 154-158). -/
def modifyNode (t : TreeM) (ix : Nat) (f : NodeM → NodeM) : TreeM :=
  { t with nodes := t.nodes.set ix (f (getNode t ix)) }

/-- Model of `Tree::create_node` (src/tree.rs lines 76-84). -/
def treeCreateNode (t : TreeM) (item : ItemM) : TreeM × Nat :=
  ({ t with nodes := t.nodes ++ [⟨none, none, item⟩] }, t.nodes.length)

/-- Model of `Tree::append` (src/tree.rs lines 62-73): link the new node as
the next sibling of the focus, or as the first child of the spine top when
the focus is nil, and move the focus onto it. -/
def treeAppend (t : TreeM) (item : ItemM) : TreeM × Nat :=
  let created := treeCreateNode t item
  let ix := created.2
  let t2 := match t.cur with
    | some curIx => modifyNode created.1 curIx (fun nd => { nd with next := some ix })
    | none => match t.spine.head? with
      | some parent => modifyNode created.1 parent (fun nd => { nd with child := some ix })
      | none => created.1
  ({ t2 with cur := some ix }, ix)

/-- Model of `Tree::push` (src/tree.rs lines 88-92); the Rust code panics
when the focus is nil, a case the modelled parser never reaches. -/
def treePush (t : TreeM) : TreeM :=
  match t.cur with
  | some curIx => { t with spine := curIx :: t.spine, cur := (getNode t curIx).child }
  | none => t

/-- Model of `Tree::pop` (src/tree.rs lines 95-99). -/
def treePop (t : TreeM) : Option (Nat × TreeM) :=
  match t.spine with
  | [] => none
  | ix :: rest => some (ix, { t with spine := rest, cur := some ix })

/-- Model of the `Tree::next_sibling(ix)` used by parse.rs: focus moves to
the next sibling of `ix` and is returned. -/
def treeNextSibling (t : TreeM) (ix : Nat) : TreeM × Option Nat :=
  let nxt := (getNode t ix).next
  ({ t with cur := nxt }, nxt)

/-- Model of `Tree::append_text` (src/parse.rs lines 1306-1322): nothing is
appended for an empty range; when the focus is a `Text` item ending exactly
at `start` its end is extended in place; otherwise a new `Text` node is
appended. -/
def appendText (t : TreeM) (start stop : Nat) : TreeM :=
  if stop > start then
    match t.cur with
    | some ix =>
      if (getNode t ix).item.body = ItemBodyM.text ∧
          (getNode t ix).item.stop = start then
        modifyNode t ix (fun nd => { nd with item := { nd.item with stop := stop } })
      else (treeAppend t ⟨start, stop, ItemBodyM.text⟩).1
    | none => (treeAppend t ⟨start, stop, ItemBodyM.text⟩).1
  else t

theorem set_length_append (l : List NodeM) (a b : NodeM) :
    (l ++ [a]).set l.length b = l ++ [b] := by
  induction l with
  | nil => rfl
  | cons x xs ih =>
    simp only [List.cons_append, List.length_cons, List.set_cons_succ, ih]

theorem nodeGetD_append_left (l : List NodeM) (x : NodeM) {j : Nat}
    (h : j < l.length) :
    (l ++ [x]).getD j dummyNode = l.getD j dummyNode := by
  rw [List.getD_eq_getElem?_getD, List.getD_eq_getElem?_getD,
    List.getElem?_append_left h]

theorem nodeGetD_append_last (l : List NodeM) (x : NodeM) :
    (l ++ [x]).getD l.length dummyNode = x := by
  rw [List.getD_eq_getElem?_getD, List.getElem?_concat_length]
  rfl

theorem nodeGetD_set_ne (l : List NodeM) (i j : Nat) (v : NodeM)
    (h : i ≠ j) :
    (l.set i v).getD j dummyNode = l.getD j dummyNode := by
  rw [List.getD_eq_getElem?_getD, List.getD_eq_getElem?_getD,
    List.getElem?_set_ne h]

theorem nodeGetD_set_self (l : List NodeM) (i : Nat) (v : NodeM)
    (h : i < l.length) :
    (l.set i v).getD i dummyNode = v := by
  rw [List.getD_eq_getElem?_getD, List.getElem?_set_self (by omega)]
  rfl

theorem treeAppend_cur_some (ns : List NodeM) (sp : List Nat) (c : Nat)
    (it : ItemM) :
    (treeAppend ⟨ns, sp, some c⟩ it).1 =
      ⟨(ns ++ [(⟨none, none, it⟩ : NodeM)]).set c
        { (ns ++ [(⟨none, none, it⟩ : NodeM)]).getD c dummyNode with
          next := some ns.length },
       sp, some ns.length⟩ := rfl

theorem treeAppend_none_cons (ns : List NodeM) (p : Nat) (sp : List Nat)
    (it : ItemM) :
    (treeAppend ⟨ns, p :: sp, none⟩ it).1 =
      ⟨(ns ++ [(⟨none, none, it⟩ : NodeM)]).set p
        { (ns ++ [(⟨none, none, it⟩ : NodeM)]).getD p dummyNode with
          child := some ns.length },
       p :: sp, some ns.length⟩ := rfl

theorem treeAppend_none_nil (ns : List NodeM) (it : ItemM) :
    (treeAppend ⟨ns, [], none⟩ it).1 =
      ⟨ns ++ [(⟨none, none, it⟩ : NodeM)], [], some ns.length⟩ := rfl

theorem appendText_some (ns : List NodeM) (sp : List Nat) (L s e : Nat)
    (h : s < e) :
    appendText ⟨ns, sp, some L⟩ s e =
      if (ns.getD L dummyNode).item.body = ItemBodyM.text ∧
          (ns.getD L dummyNode).item.stop = s then
        ⟨ns.set L { ns.getD L dummyNode with item :=
          { (ns.getD L dummyNode).item with stop := e } }, sp, some L⟩
      else (treeAppend ⟨ns, sp, some L⟩ ⟨s, e, ItemBodyM.text⟩).1 := by
  unfold appendText
  rw [if_pos (by omega)]
  rfl

theorem appendText_none (ns : List NodeM) (sp : List Nat) (s e : Nat)
    (h : s < e) :
    appendText ⟨ns, sp, none⟩ s e =
      (treeAppend ⟨ns, sp, none⟩ ⟨s, e, ItemBodyM.text⟩).1 := by
  unfold appendText
  rw [if_pos (by omega)]

theorem appendText_nil (t : TreeM) (s e : Nat) (h : e ≤ s) :
    appendText t s e = t := by
  unfold appendText
  rw [if_neg (by omega)]

/-- A fresh text node appended with range `[s, m)` and then extended with the
contiguous range `[m, e)` coalesces: the result is the tree obtained by
appending `[s, e)` at once, and the extension allocates no node. Focused
case: the focus is a valid node index. -/
theorem treeAppend_text_merge_some (ns : List NodeM) (sp : List Nat)
    (c s m e : Nat) (hsm : s < m) (hme : m < e) (hcL : c < ns.length) :
    appendText (treeAppend ⟨ns, sp, some c⟩ ⟨s, m, ItemBodyM.text⟩).1 m e =
      (treeAppend ⟨ns, sp, some c⟩ ⟨s, e, ItemBodyM.text⟩).1 ∧
    (appendText (treeAppend ⟨ns, sp, some c⟩
        ⟨s, m, ItemBodyM.text⟩).1 m e).nodes.length =
      ((treeAppend ⟨ns, sp, some c⟩ ⟨s, m, ItemBodyM.text⟩).1).nodes.length := by
  have hne : c ≠ ns.length := by omega
  rw [treeAppend_cur_some, treeAppend_cur_some,
    nodeGetD_append_left ns _ hcL, nodeGetD_append_left ns _ hcL,
    appendText_some _ _ _ _ _ (by omega)]
  rw [nodeGetD_set_ne _ _ _ _ hne, nodeGetD_append_last]
  rw [if_pos ⟨rfl, rfl⟩]
  refine ⟨?_, by simp [List.length_set]⟩
  rw [List.set_comm _ _ _ hne, set_length_append]

/-- The same coalescing fact when the focus is nil, so the fresh node is
linked as first child of the spine top (or stands alone). -/
theorem treeAppend_text_merge_none (ns : List NodeM) (sp : List Nat)
    (s m e : Nat) (hsm : s < m) (hme : m < e)
    (hsp : ∀ p, sp.head? = some p → p < ns.length) :
    appendText (treeAppend ⟨ns, sp, none⟩ ⟨s, m, ItemBodyM.text⟩).1 m e =
      (treeAppend ⟨ns, sp, none⟩ ⟨s, e, ItemBodyM.text⟩).1 ∧
    (appendText (treeAppend ⟨ns, sp, none⟩
        ⟨s, m, ItemBodyM.text⟩).1 m e).nodes.length =
      ((treeAppend ⟨ns, sp, none⟩ ⟨s, m, ItemBodyM.text⟩).1).nodes.length := by
  cases sp with
  | nil =>
    rw [treeAppend_none_nil, treeAppend_none_nil,
      appendText_some _ _ _ _ _ (by omega)]
    rw [nodeGetD_append_last]
    rw [if_pos ⟨rfl, rfl⟩]
    refine ⟨?_, by simp [List.length_set]⟩
    rw [set_length_append]
  | cons p sp' =>
    have hpL : p < ns.length := hsp p rfl
    have hne : p ≠ ns.length := by omega
    rw [treeAppend_none_cons, treeAppend_none_cons,
      nodeGetD_append_left ns _ hpL, nodeGetD_append_left ns _ hpL,
      appendText_some _ _ _ _ _ (by omega)]
    rw [nodeGetD_set_ne _ _ _ _ hne, nodeGetD_append_last]
    rw [if_pos ⟨rfl, rfl⟩]
    refine ⟨?_, by simp [List.length_set]⟩
    rw [List.set_comm _ _ _ hne, set_length_append]

/-- Claim C10 (confirmed): `Tree::append_text` appends nothing for an empty
range; appending a text range and then the contiguous next range—whether by
growing the focused `Text` node in place or right after a fresh append—
coalesces into the single `Text` node covering the joined range, and the
second append allocates no node. -/
theorem c10_append_text_coalesces (t : TreeM) (s m e : Nat)
    (hcur : ∀ c, t.cur = some c → c < t.nodes.length)
    (hsp : ∀ p, t.cur = none → t.spine.head? = some p → p < t.nodes.length)
    (hsm : s < m) (hme : m < e) :
    (∀ (t' : TreeM) (s' e' : Nat), e' ≤ s' → appendText t' s' e' = t') ∧
    appendText (appendText t s m) m e = appendText t s e ∧
    (appendText (appendText t s m) m e).nodes.length =
      (appendText t s m).nodes.length := by
  obtain ⟨ns, sp, cu⟩ := t
  refine ⟨fun t' s' e' h => appendText_nil t' s' e' h, ?_⟩
  cases cu with
  | none =>
    rw [appendText_none _ _ _ _ hsm, appendText_none _ _ _ _ (by omega)]
    exact treeAppend_text_merge_none ns sp s m e hsm hme
      (fun p hp => hsp p rfl hp)
  | some c =>
    have hcL : c < ns.length := hcur c rfl
    rw [appendText_some _ _ _ _ _ hsm, appendText_some _ _ _ _ _ (by omega)]
    by_cases hmerge : (ns.getD c dummyNode).item.body = ItemBodyM.text ∧
        (ns.getD c dummyNode).item.stop = s
    · rw [if_pos hmerge, if_pos hmerge,
        appendText_some _ _ _ _ _ (by omega)]
      rw [nodeGetD_set_self _ _ _ (by simpa using hcL)]
      rw [if_pos ⟨hmerge.1, rfl⟩]
      refine ⟨?_, by simp [List.length_set]⟩
      rw [List.set_set]
    · rw [if_neg hmerge, if_neg hmerge]
      exact treeAppend_text_merge_some ns sp c s m e hsm hme hcL

/-- Witness for C10 on a concrete tree: appending the ranges `[1,2)` then
`[2,4)` to a fresh dummy-rooted tree equals appending `[1,4)` at once, and
the second append allocates no node. -/
theorem c10_witness :
    appendText (appendText ⟨[dummyNode], [], none⟩ 1 2) 2 4 =
      appendText (⟨[dummyNode], [], none⟩ : TreeM) 1 4 ∧
    (appendText (appendText ⟨[dummyNode], [], none⟩ 1 2) 2 4).nodes.length =
      (appendText (⟨[dummyNode], [], none⟩ : TreeM) 1 2).nodes.length :=
  ⟨(c10_append_text_coalesces ⟨[dummyNode], [], none⟩ 1 2 4
      (by intro c hc; cases hc) (by intro p hn hp; cases hp)
      (by omega) (by omega)).2.1,
   (c10_append_text_coalesces ⟨[dummyNode], [], none⟩ 1 2 4
      (by intro c hc; cases hc) (by intro p hn hp; cases hp)
      (by omega) (by omega)).2.2⟩

/-! ### Second-pass event emission (`Parser::next`) and well-nesting -/

/-- Model of `Tag` (src/parse.rs lines 35-68): payloads that the code reads
out of `Allocations` are carried as their allocation indices, and
`Tag::CodeBlock` carries `none` for the empty string given to indented code
blocks. -/
inductive TagM where
  | paragraph
  | rule
  | header (level : Int)
  | blockQuote
  | codeBlock (cowIx : Option Nat)
  | list (startIx : Option Nat)
  | item
  | footnoteDefinition (cowIx : Nat)
  | htmlBlock
  | table (alignIx : Nat)
  | tableHead
  | tableRow
  | tableCell
  | emphasis
  | strong
  | strikethrough
  | link (linkIx : Nat)
  | image (linkIx : Nat)
  deriving Repr, DecidableEq

/-- A cow string as the emitter produces it: either a slice of the input
text or an allocated cow (src/parse.rs `CowStr` uses). -/
inductive CowM where
  | slice (s e : Nat)
  | alloc (cowIx : Nat)
  deriving Repr, DecidableEq

/-- Model of `Event` (src/parse.rs lines 104-116); `stop` models
`Event::End`. -/
inductive EventM where
  | start (tag : TagM)
  | stop (tag : TagM)
  | text (c : CowM)
  | code (cowIx : Nat)
  | html (c : CowM)
  | inlineHtml (c : CowM)
  | footnoteReference (cowIx : Nat)
  | softBreak
  | hardBreak
  | taskListMarker (checked : Bool)
  deriving Repr, DecidableEq

/-- Model of `item_to_tag` (src/parse.rs lines 2278-2317). -/
def itemToTag (item : ItemM) : Option TagM :=
  match item.body with
  | ItemBodyM.paragraph => some TagM.paragraph
  | ItemBodyM.emphasis => some TagM.emphasis
  | ItemBodyM.strong => some TagM.strong
  | ItemBodyM.strikethrough => some TagM.strikethrough
  | ItemBodyM.link linkIx => some (TagM.link linkIx)
  | ItemBodyM.image linkIx => some (TagM.image linkIx)
  | ItemBodyM.rule => some TagM.rule
  | ItemBodyM.header level => some (TagM.header level)
  | ItemBodyM.fencedCodeBlock cowIx => some (TagM.codeBlock (some cowIx))
  | ItemBodyM.indentCodeBlock => some (TagM.codeBlock none)
  | ItemBodyM.blockQuote => some TagM.blockQuote
  | ItemBodyM.list _ c startIx =>
    if c = 46 ∨ c = 41 then some (TagM.list (some startIx))
    else some (TagM.list none)
  | ItemBodyM.listItem _ => some TagM.item
  | ItemBodyM.htmlBlock _ => some TagM.htmlBlock
  | ItemBodyM.tableHead => some TagM.tableHead
  | ItemBodyM.tableCell => some TagM.tableCell
  | ItemBodyM.tableRow => some TagM.tableRow
  | ItemBodyM.table alignIx => some (TagM.table alignIx)
  | ItemBodyM.footnoteDefinition cowIx =>
    some (TagM.footnoteDefinition cowIx)
  | _ => none

/-- Model of `item_to_event` (src/parse.rs lines 2320-2345); `none` models
the final `unreachable` arm. -/
def itemToEvent (item : ItemM) : Option EventM :=
  match item.body with
  | ItemBodyM.text => some (EventM.text (CowM.slice item.start item.stop))
  | ItemBodyM.code cowIx => some (EventM.code cowIx)
  | ItemBodyM.synthesizeText cowIx => some (EventM.text (CowM.alloc cowIx))
  | ItemBodyM.html => some (EventM.html (CowM.slice item.start item.stop))
  | ItemBodyM.inlineHtml =>
    some (EventM.inlineHtml (CowM.slice item.start item.stop))
  | ItemBodyM.softBreak => some EventM.softBreak
  | ItemBodyM.hardBreak => some EventM.hardBreak
  | ItemBodyM.footnoteReference cowIx =>
    some (EventM.footnoteReference cowIx)
  | ItemBodyM.taskListMarker checked => some (EventM.taskListMarker checked)
  | _ => none

/-- The second-pass iterator state: the tree plus the byte offset that
`Parser::next` maintains (src/parse.rs lines 2390-2428). -/
structure ParserM where
  tree : TreeM
  offset : Nat
  deriving Repr, DecidableEq

/-- Outcome of one `Parser::next` call: the iterator is exhausted, an event
is emitted with the successor state, or the code would reach a Rust panic
(`unwrap` of a tagless popped item, or `item_to_event` on a body it
rejects). -/
inductive StepM where
  | done
  | stuck
  | emit (ev : EventM) (s : ParserM)
  deriving Repr, DecidableEq

/-- The structural behaviour of `handle_inline` (src/parse.rs lines
1774-2258) that the emission model relies on: both passes read
`self.tree.cur()` into a local cursor and never call `push`, `pop` or
`next_sibling` on the tree, so the spine and the focus are unchanged, and
they rewrite items and child/next links only in the subforest hanging at
the focus (appending fresh nodes), never the items of the open ancestor
nodes recorded on the spine. The emission theorems hold for every
inline-resolution pass with these properties. -/
def InlinePreserves (hi : TreeM → TreeM) : Prop :=
  ∀ t : TreeM, (hi t).spine = t.spine ∧ (hi t).cur = t.cur ∧
    ∀ ix ∈ t.spine, (getNode (hi t) ix).item = (getNode t ix).item

/-- The shared tail of the `Valid` branch of `Parser::next` (src/parse.rs
lines 2408-2426), evaluated at the (possibly backslash-skipped) focus
`curIx`: when the focused item is still inline the inline-resolution pass
`hi` (modelling `handle_inline`) runs first; then, in `parserEmitCore`, a
tagged item emits `Start` and pushes, and a leaf emits its event and moves
to the next sibling (an item neither tagged nor a leaf panics in Rust:
`stuck`). -/
def parserEmitCore (t : TreeM) (curIx : Nat) : StepM :=
  match itemToTag (getNode t curIx).item with
  | some tag =>
    let offset := match (getNode t curIx).child with
      | some childIx => (getNode t childIx).item.start
      | none => (getNode t curIx).item.stop
    StepM.emit (EventM.start tag) ⟨treePush t, offset⟩
  | none =>
    match itemToEvent (getNode t curIx).item with
    | none => StepM.stuck
    | some ev =>
      StepM.emit ev ⟨(treeNextSibling t curIx).1,
        (getNode t curIx).item.stop⟩

def parserEmitAt (hi : TreeM → TreeM) (s : ParserM) (curIx : Nat) : StepM :=
  parserEmitCore
    (if (getNode s.tree curIx).item.body.isInline then hi s.tree else s.tree)
    curIx

/-- Model of `Parser::next` (src/parse.rs lines 2393-2428), parametrized by
the inline-resolution pass `hi`. On a nil focus the spine is popped and
`End` of the popped node's tag is emitted; on a valid focus a `Backslash`
item is skipped to its next sibling (the focus pointer is updated either
way) and the item is emitted via `parserEmitAt`. -/
def parserNext (hi : TreeM → TreeM) (s : ParserM) : StepM :=
  match s.tree.cur with
  | none =>
    match treePop s.tree with
    | none => StepM.done
    | some (ix, t1) =>
      match itemToTag (getNode t1 ix).item with
      | none => StepM.stuck
      | some tag =>
        StepM.emit (EventM.stop tag)
          ⟨(treeNextSibling t1 ix).1, (getNode t1 ix).item.stop⟩
  | some curIx0 =>
    match (getNode s.tree curIx0).item.body with
    | ItemBodyM.backslash =>
      match (getNode s.tree curIx0).next with
      | some nxt =>
        parserEmitAt hi ⟨{ s.tree with cur := some nxt }, s.offset⟩ nxt
      | none =>
        parserEmitAt hi ⟨{ s.tree with cur := none }, s.offset⟩ curIx0
    | _ => parserEmitAt hi s curIx0

/-- Outcome of iterating the parser with bounded fuel. -/
inductive RunOutM where
  | exhausted
  | stuckOut
  | fuelOut
  deriving Repr, DecidableEq

/-- Iterate `parserNext` to exhaustion (bounded by fuel), collecting the
emitted events in order. -/
def parserRun (hi : TreeM → TreeM) : Nat → ParserM → List EventM × RunOutM
  | 0, _ => ([], RunOutM.fuelOut)
  | fuel + 1, s =>
    match parserNext hi s with
    | StepM.done => ([], RunOutM.exhausted)
    | StepM.stuck => ([], RunOutM.stuckOut)
    | StepM.emit ev s' =>
      let r := parserRun hi fuel s'
      (ev :: r.1, r.2)

/-- `Start` and `End` events are the scope delimiters of the stream. -/
def isScope : EventM → Bool
  | EventM.start _ => true
  | EventM.stop _ => true
  | _ => false

/-- Balanced well-nesting of an event stream: every `start t` is closed by
a matching `stop t`, and matched pairs nest without partial overlap. -/
inductive Nested : List EventM → Prop where
  | nil : Nested []
  | leaf (ev : EventM) (rest : List EventM) (h : isScope ev = false)
      (hr : Nested rest) : Nested (ev :: rest)
  | node (t : TagM) (inner rest : List EventM) (hi : Nested inner)
      (hr : Nested rest) :
      Nested (EventM.start t :: inner ++ EventM.stop t :: rest)

/-- Stack checker for balance: scope events must match the stack of open
tags (an entry is the tag computed from the corresponding spine node). -/
def checkBalanceO : List EventM → List (Option TagM) → Bool
  | [], stk => stk.isEmpty
  | EventM.start t :: rest, stk => checkBalanceO rest (some t :: stk)
  | EventM.stop t :: rest, stk =>
    match stk with
    | ot :: stk2 => if ot = some t then checkBalanceO rest stk2 else false
    | [] => false
  | _ :: rest, stk => checkBalanceO rest stk

/-- The tags of the open nodes on the spine, top first. -/
def spineTags (t : TreeM) : List (Option TagM) :=
  t.spine.map (fun ix => itemToTag (getNode t ix).item)

theorem checkBalanceO_leaf (ev : EventM) (rest : List EventM)
    (stk : List (Option TagM)) (h : isScope ev = false) :
    checkBalanceO (ev :: rest) stk = checkBalanceO rest stk := by
  cases ev <;> simp [isScope] at h ⊢ <;> rfl

theorem itemToEvent_not_scope (item : ItemM) (ev : EventM)
    (h : itemToEvent item = some ev) : isScope ev = false := by
  unfold itemToEvent at h
  split at h <;> first
    | (injection h with h1; subst h1; rfl)
    | injection h

theorem spineTags_congr (t1 t2 : TreeM) (hspine : t1.spine = t2.spine)
    (hitems : ∀ ix ∈ t2.spine, (getNode t1 ix).item = (getNode t2 ix).item) :
    spineTags t1 = spineTags t2 := by
  unfold spineTags
  rw [hspine]
  exact List.map_congr_left (fun ix hix => by rw [hitems ix hix])

theorem spineTags_push (t : TreeM) (curIx : Nat) (hcur : t.cur = some curIx) :
    spineTags (treePush t) =
      itemToTag (getNode t curIx).item :: spineTags t := by
  unfold treePush
  rw [hcur]
  rfl

/-- One event emitted from a valid focus either opens the focused node
(pushing its tag) or is a leaf that leaves the spine tags unchanged; the
inline-resolution pass run beforehand preserves the spine tags by
`InlinePreserves`. -/
theorem parserEmitCore_emit (t : TreeM) (curIx : Nat) (ev : EventM)
    (s' : ParserM) (htc : t.cur = some curIx)
    (h : parserEmitCore t curIx = StepM.emit ev s') :
    (∃ tag, ev = EventM.start tag ∧
      spineTags s'.tree = some tag :: spineTags t) ∨
    (isScope ev = false ∧ spineTags s'.tree = spineTags t) := by
  unfold parserEmitCore at h
  split at h
  · next tag htag =>
    injection h with h1 h2
    subst h1
    refine Or.inl ⟨tag, rfl, ?_⟩
    rw [← h2]
    show spineTags (treePush t) = some tag :: spineTags t
    rw [spineTags_push t curIx htc, htag]
  · split at h
    · cases h
    · next ev0 hev =>
      injection h with h1 h2
      subst h1
      refine Or.inr ⟨itemToEvent_not_scope _ _ hev, ?_⟩
      rw [← h2]
      show spineTags ((treeNextSibling t curIx).1) = spineTags t
      rfl

/-- One event emitted from a valid focus either opens the focused node
(pushing its tag) or is a leaf that leaves the spine tags unchanged; the
inline-resolution pass run beforehand preserves the spine tags by
`InlinePreserves`. -/
theorem parserEmitAt_emit (hi : TreeM → TreeM) (hpres : InlinePreserves hi)
    (s : ParserM) (curIx : Nat) (ev : EventM) (s' : ParserM)
    (hcur : s.tree.cur = some curIx)
    (h : parserEmitAt hi s curIx = StepM.emit ev s') :
    (∃ tag, ev = EventM.start tag ∧
      spineTags s'.tree = some tag :: spineTags s.tree) ∨
    (isScope ev = false ∧ spineTags s'.tree = spineTags s.tree) := by
  unfold parserEmitAt at h
  set t := if (getNode s.tree curIx).item.body.isInline then hi s.tree
    else s.tree with ht
  have hts : t.spine = s.tree.spine := by
    rw [ht]
    split
    · exact (hpres s.tree).1
    · rfl
  have htc : t.cur = some curIx := by
    rw [ht]
    split
    · rw [(hpres s.tree).2.1, hcur]
    · exact hcur
  have hti : spineTags t = spineTags s.tree := by
    apply spineTags_congr t s.tree hts
    intro ix hix
    rw [ht]
    split
    · exact (hpres s.tree).2.2 ix (hts ▸ hix)
    · rfl
  rcases parserEmitCore_emit t curIx ev s' htc h with
    ⟨tag, hev, hsp⟩ | ⟨hl, hsp⟩
  · exact Or.inl ⟨tag, hev, by rw [hsp, hti]⟩
  · exact Or.inr ⟨hl, by rw [hsp, hti]⟩

theorem parserEmitCore_backslash_ne_emit (t : TreeM) (curIx : Nat)
    (hb : (getNode t curIx).item.body = ItemBodyM.backslash)
    (ev : EventM) (s' : ParserM) :
    parserEmitCore t curIx ≠ StepM.emit ev s' := by
  unfold parserEmitCore
  rw [show itemToTag (getNode t curIx).item = none from by
    unfold itemToTag; rw [hb]]
  rw [show itemToEvent (getNode t curIx).item = none from by
    unfold itemToEvent; rw [hb]]
  simp

/-- One emitted event either closes the top of the spine with its own tag,
opens a node (pushing its tag), or is a leaf leaving the spine tags
unchanged. -/
theorem parserNext_emit (hi : TreeM → TreeM) (hpres : InlinePreserves hi)
    (s : ParserM) (ev : EventM) (s' : ParserM)
    (h : parserNext hi s = StepM.emit ev s') :
    (∃ tag, ev = EventM.stop tag ∧
      spineTags s.tree = some tag :: spineTags s'.tree) ∨
    (∃ tag, ev = EventM.start tag ∧
      spineTags s'.tree = some tag :: spineTags s.tree) ∨
    (isScope ev = false ∧ spineTags s'.tree = spineTags s.tree) := by
  unfold parserNext at h
  cases hcur : s.tree.cur with
  | none =>
    rw [hcur] at h
    simp only [] at h
    cases hspine : s.tree.spine with
    | nil =>
      unfold treePop at h
      rw [hspine] at h
      cases h
    | cons ix rest =>
      unfold treePop at h
      rw [hspine] at h
      simp only [] at h
      split at h
      · cases h
      · next tag htag =>
        injection h with h1 h2
        subst h1
        refine Or.inl ⟨tag, rfl, ?_⟩
        rw [← h2]
        unfold spineTags
        rw [hspine]
        simp only [List.map_cons]
        rw [show itemToTag (getNode s.tree ix).item = some tag from htag]
        rfl
  | some curIx0 =>
    rw [hcur] at h
    simp only [] at h
    split at h
    · next hbody =>
      cases hnext : (getNode s.tree curIx0).next with
      | some nxt =>
        rw [hnext] at h
        have hstep := parserEmitAt_emit hi hpres
          ⟨{ s.tree with cur := some nxt }, s.offset⟩ nxt ev s' rfl h
        rcases hstep with ⟨tag, hev, hsp⟩ | ⟨hl, hsp⟩
        · exact Or.inr (Or.inl ⟨tag, hev, hsp⟩)
        · exact Or.inr (Or.inr ⟨hl, hsp⟩)
      | none =>
        rw [hnext] at h
        have h2 : parserEmitAt hi
            ⟨{ s.tree with cur := none }, s.offset⟩ curIx0 =
            StepM.emit ev s' := h
        unfold parserEmitAt at h2
        split at h2
        · next hinl =>
          have hbb : (getNode (⟨{ s.tree with cur := none }, s.offset⟩ :
              ParserM).tree curIx0).item.body = ItemBodyM.backslash := hbody
          rw [hbb] at hinl
          simp [ItemBodyM.isInline] at hinl
        · exact absurd h2
            (parserEmitCore_backslash_ne_emit
              (⟨{ s.tree with cur := none }, s.offset⟩ : ParserM).tree
              curIx0 hbody ev s')
    · have hstep := parserEmitAt_emit hi hpres s curIx0 ev s' hcur h
      rcases hstep with ⟨tag, hev, hsp⟩ | ⟨hl, hsp⟩
      · exact Or.inr (Or.inl ⟨tag, hev, hsp⟩)
      · exact Or.inr (Or.inr ⟨hl, hsp⟩)

theorem parserEmitCore_ne_done (t : TreeM) (curIx : Nat) :
    parserEmitCore t curIx ≠ StepM.done := by
  unfold parserEmitCore
  split
  · simp
  · split <;> simp

theorem parserEmitAt_ne_done (hi : TreeM → TreeM) (s : ParserM)
    (curIx : Nat) : parserEmitAt hi s curIx ≠ StepM.done := by
  unfold parserEmitAt
  exact parserEmitCore_ne_done _ _

theorem parserNext_done (hi : TreeM → TreeM) (s : ParserM)
    (h : parserNext hi s = StepM.done) :
    s.tree.spine = [] := by
  unfold parserNext at h
  cases hcur : s.tree.cur with
  | none =>
    rw [hcur] at h
    simp only [] at h
    cases hspine : s.tree.spine with
    | nil => rfl
    | cons ix rest =>
      unfold treePop at h
      rw [hspine] at h
      simp only [] at h
      split at h <;> cases h
  | some curIx0 =>
    rw [hcur] at h
    simp only [] at h
    split at h
    · split at h
      · exact absurd h (parserEmitAt_ne_done _ _ _)
      · exact absurd h (parserEmitAt_ne_done _ _ _)
    · exact absurd h (parserEmitAt_ne_done _ _ _)

/-- Running the emitter to exhaustion passes the balance checker started on
the tags of the current spine. -/
theorem parserRun_balance (hi : TreeM → TreeM) (hpres : InlinePreserves hi) :
    ∀ (fuel : Nat) (s : ParserM) (evs : List EventM),
    parserRun hi fuel s = (evs, RunOutM.exhausted) →
    checkBalanceO evs (spineTags s.tree) = true := by
  intro fuel
  induction fuel with
  | zero =>
    intro s evs h
    unfold parserRun at h
    cases h
  | succ n ih =>
    intro s evs h
    unfold parserRun at h
    cases hstep : parserNext hi s with
    | done =>
      rw [hstep] at h
      injection h with h1 h2
      rw [← h1]
      show checkBalanceO [] (spineTags s.tree) = true
      unfold spineTags
      rw [parserNext_done hi s hstep]
      rfl
    | stuck =>
      rw [hstep] at h
      injection h with h1 h2
      cases h2
    | emit ev s' =>
      rw [hstep] at h
      simp only [] at h
      injection h with h1 h2
      cases hr : parserRun hi n s' with
      | mk evs1 out =>
        rw [hr] at h1 h2
        simp only [] at h1 h2
        subst h2
        have hrec := ih s' evs1 hr
        rcases parserNext_emit hi hpres s ev s' hstep with
          ⟨tag, hev, hst⟩ | ⟨tag, hev, hst⟩ | ⟨hleaf, hst⟩
        · subst hev
          rw [← h1, hst]
          simp only [checkBalanceO]
          rw [if_pos trivial]
          exact hrec
        · subst hev
          rw [← h1]
          simp only [checkBalanceO]
          rw [← hst]
          exact hrec
        · rw [← h1, checkBalanceO_leaf ev evs1 _ hleaf, ← hst]
          exact hrec

/-- A stream accepted by the checker from a stack of genuine tags
decomposes into well-nested form: with an empty stack it is `Nested`; with
top tag `t` it splits at the `stop t` that closes it. -/
theorem checkBalanceO_nested : ∀ (n : Nat) (evs : List EventM)
    (stk : List TagM), evs.length ≤ n →
    checkBalanceO evs (stk.map some) = true →
    (stk = [] → Nested evs) ∧
    (∀ t stk2, stk = t :: stk2 →
      ∃ inner rest, evs = inner ++ EventM.stop t :: rest ∧ Nested inner ∧
        checkBalanceO rest (stk2.map some) = true ∧
        rest.length < evs.length) := by
  intro n
  induction n with
  | zero =>
    intro evs stk hlen hchk
    have hnil : evs = [] := List.length_eq_zero.mp (by omega)
    subst hnil
    constructor
    · intro _
      exact Nested.nil
    · intro t stk2 hstk
      subst hstk
      simp [checkBalanceO] at hchk
  | succ n ih =>
    intro evs stk hlen hchk
    cases evs with
    | nil =>
      constructor
      · intro _
        exact Nested.nil
      · intro t stk2 hstk
        subst hstk
        simp [checkBalanceO] at hchk
    | cons ev rest =>
      cases hev : ev with
      | start t2 =>
        subst hev
        have hchk2 : checkBalanceO rest ((t2 :: stk).map some) = true := by
          simpa [checkBalanceO] using hchk
        have hlen2 : rest.length ≤ n := by
          simp only [List.length_cons] at hlen
          omega
        obtain ⟨inner1, rest1, hsplit, hinner1, hchk1, hlt1⟩ :=
          (ih rest (t2 :: stk) hlen2 hchk2).2 t2 stk rfl
        constructor
        · intro hstk
          subst hstk
          have hn1 : Nested rest1 :=
            (ih rest1 [] (by omega) hchk1).1 rfl
          rw [hsplit]
          exact Nested.node t2 inner1 rest1 hinner1 hn1
        · intro t stk2 hstk
          subst hstk
          obtain ⟨inner2, rest2, hsplit2, hinner2, hchk3, hlt2⟩ :=
            (ih rest1 (t :: stk2) (by omega) hchk1).2 t stk2 rfl
          refine ⟨EventM.start t2 :: inner1 ++ EventM.stop t2 :: inner2,
            rest2, ?_, ?_, hchk3, ?_⟩
          · rw [hsplit, hsplit2]
            simp
          · exact Nested.node t2 inner1 inner2 hinner1 hinner2
          · simp only [List.length_cons] at hlt1 hlt2 ⊢
            rw [hsplit] at hlen ⊢
            simp only [List.length_append, List.length_cons] at hlt2 ⊢
            omega
      | stop t0 =>
        subst hev
        cases stk with
        | nil => simp [checkBalanceO] at hchk
        | cons t stk2 =>
          have ht : t = t0 ∧ checkBalanceO rest (stk2.map some) = true := by
            simp only [List.map_cons, checkBalanceO] at hchk
            split at hchk
            · next heq =>
              exact ⟨Option.some.inj heq, hchk⟩
            · cases hchk
          constructor
          · intro hstk
            cases hstk
          · intro t1 stk3 hstk
            injection hstk with ha hb
            subst ha
            subst hb
            refine ⟨[], rest, ?_, Nested.nil, ht.2, by simp⟩
            rw [ht.1]
            rfl
      | _ =>
        subst hev
        rw [checkBalanceO_leaf _ _ _ (by rfl)] at hchk
        have hlen2 : rest.length ≤ n := by
          simp only [List.length_cons] at hlen
          omega
        constructor
        · intro hstk
          subst hstk
          exact Nested.leaf _ _ (by rfl)
            ((ih rest [] hlen2 hchk).1 rfl)
        · intro t stk2 hstk
          subst hstk
          obtain ⟨inner, rest1, hsplit, hinner, hchk1, hlt⟩ :=
            (ih rest (t :: stk2) hlen2 hchk).2 t stk2 rfl
          refine ⟨_ :: inner, rest1, by rw [hsplit]; rfl,
            Nested.leaf _ _ (by rfl) hinner, hchk1, ?_⟩
          simp only [List.length_cons]
          omega

/-- Claim C1 (confirmed): for every inline-resolution pass that preserves
the spine, the focus, and the items of the open ancestor nodes — the
verified structural behaviour of `handle_inline`, which reads `tree.cur()`
into a local cursor, never calls `push`/`pop`/`next_sibling`, and rewrites
only the subforest at the focus (src/parse.rs lines 1774-2258) — iterating
the modelled `Parser::next` to exhaustion from a state whose spine of open
nodes is empty yields a balanced, well-nested event stream: every
`Start(t)` is closed by a later `End(t)` with the same tag and matched
pairs nest without partial overlap. Runs that would reach a Rust panic do
not exhaust and are excluded by hypothesis. -/
theorem c1_event_stream_well_nested (hi : TreeM → TreeM)
    (hpres : InlinePreserves hi) (fuel : Nat) (s : ParserM)
    (evs : List EventM) (hspine : s.tree.spine = [])
    (hrun : parserRun hi fuel s = (evs, RunOutM.exhausted)) :
    Nested evs := by
  have hb := parserRun_balance hi hpres fuel s evs hrun
  rw [show spineTags s.tree = [] from by
    unfold spineTags; rw [hspine]; rfl] at hb
  exact (checkBalanceO_nested evs.length evs [] (le_refl _)
    (by simpa using hb)).1 rfl

/-- Witness for C1 with the identity inline pass: a dummy-rooted tree
holding one paragraph with one text child runs to exhaustion in four steps
and the emitted stream `[Start Paragraph, Text, End Paragraph]` is
well-nested. -/
theorem c1_witness :
    InlinePreserves id ∧
    (⟨⟨[dummyNode, ⟨some 2, none, ⟨0, 5, ItemBodyM.paragraph⟩⟩,
        ⟨none, none, ⟨0, 5, ItemBodyM.text⟩⟩], [], some 1⟩, 0⟩ :
      ParserM).tree.spine = [] ∧
    parserRun id 4 ⟨⟨[dummyNode, ⟨some 2, none, ⟨0, 5, ItemBodyM.paragraph⟩⟩,
        ⟨none, none, ⟨0, 5, ItemBodyM.text⟩⟩], [], some 1⟩, 0⟩ =
      ([EventM.start TagM.paragraph, EventM.text (CowM.slice 0 5),
        EventM.stop TagM.paragraph], RunOutM.exhausted) ∧
    Nested [EventM.start TagM.paragraph, EventM.text (CowM.slice 0 5),
      EventM.stop TagM.paragraph] :=
  ⟨fun t => ⟨rfl, rfl, fun _ _ => rfl⟩, rfl, by decide,
    c1_event_stream_well_nested id (fun t => ⟨rfl, rfl, fun _ _ => rfl⟩) 4
      ⟨⟨[dummyNode, ⟨some 2, none, ⟨0, 5, ItemBodyM.paragraph⟩⟩,
        ⟨none, none, ⟨0, 5, ItemBodyM.text⟩⟩], [], some 1⟩, 0⟩
      [EventM.start TagM.paragraph, EventM.text (CowM.slice 0 5),
        EventM.stop TagM.paragraph] rfl (by decide)⟩

end PulldownCmark


